import Mathlib

/-!
Formal model of the repeat-motion segmentation code.

The development has two layers.

The combinatorial layer models the control flow of search_subsequence,
average_distance_to_templates and segment_repeat_sequences from
segmentation.py.  Distances are modelled as rationals extended with
infinity (the code works with numpy floats and uses np.inf as the
initial running minimum); the numeric kernels that produce the
per-template distances and the lower bound values are passed in as
oracle functions, exactly at the call boundaries the code has.

The analytic layer models, over the real numbers, the DTW accumulated
cost recurrence of the external kernel together with the two lower
bound functions average_lb_distance_to_templates1 and
average_lb_distance_to_templates2, and the Sakoe-Chiba mask and the
percentile based threshold rule from utils.py and segmentation.py.
-/

namespace RepeatMotion

/-- Distances: nonnegative rationals extended with infinity, modelling the
float values (np.inf included) manipulated by the search code. -/
abbrev Dist := WithTop ℚ

/-- Result of one call to search_subsequence: best candidate length, its
average distance, and the label of the best matching action group. -/
structure SearchRes where
  len : ℕ
  dist : Dist
  label : ℕ
  deriving DecidableEq

/-- The tracked best match inside one driver scan, modelling the list
info_best = [offset, sequence_length, avg_distance, label] initialised to
[0, 0, np.inf, 0]. -/
structure BestInfo where
  offset : ℕ
  len : ℕ
  dist : Dist
  label : ℕ
  deriving DecidableEq

/-- Python list indexing with negative wraparound, as used by the driver in
the expression distance_thresholds[label - 1].  An out of range index gives
infinity here; the real code would raise, and every use below is kept in
range by the theorems. -/
def pyGetD (l : List Dist) (i : ℤ) : Dist :=
  if i < 0 then l.getD (l.length - (-i).toNat) ⊤ else l.getD i.toNat ⊤

/-- Sum of a list of extended distances. -/
def sumDist (l : List Dist) : Dist := l.foldl (· + ·) 0

/-- Division of an extended distance by a template count. -/
def divDist (v : Dist) (k : ℕ) : Dist := v.map (fun q => q / (k : ℚ))

/-- The loop of average_distance_to_templates over the action groups.  The
argument ds holds, for each group, the list of per-template normalized DTW
distances d = njit_dtw(sequence, temp, mask) / (len_seq + len_temp); the
loop accumulates their group average and keeps the minimizing group and its
one-based label. -/
def avgLoop : List (List Dist) → ℕ → Dist × ℕ → Dist × ℕ
  | [], _, st => st
  | g :: rest, i, (vmin, lab) =>
    let val := divDist (sumDist g) g.length
    if val < vmin then avgLoop rest (i + 1) (val, i + 1)
    else avgLoop rest (i + 1) (vmin, lab)

/-- average_distance_to_templates from segmentation.py: val_min starts at
np.inf and label starts at 1; group i updates the pair when its average
distance is strictly below the running minimum. -/
def average_distance_to_templates (ds : List (List Dist)) : Dist × ℕ :=
  avgLoop ds 0 (⊤, 1)

/-- The candidate-length loop of search_subsequence: state is
(len_best, d_min, label_best).  With use_lower_bounds set, a candidate m is
skipped when either cascading lower bound strictly exceeds the running
minimum d_min; otherwise the exact average distance davg m is computed and
the state is updated when it is strictly smaller than d_min. -/
def searchLoop (useLB : Bool) (lb1 lb2 : ℕ → Dist) (davg : ℕ → Dist × ℕ) :
    List ℕ → ℕ × Dist × ℕ → ℕ × Dist × ℕ
  | [], st => st
  | m :: rest, (lenB, dmin, labB) =>
    if useLB ∧ dmin < lb1 m then searchLoop useLB lb1 lb2 davg rest (lenB, dmin, labB)
    else if useLB ∧ dmin < lb2 m then searchLoop useLB lb1 lb2 davg rest (lenB, dmin, labB)
    else
      let p := davg m
      if p.1 < dmin then searchLoop useLB lb1 lb2 davg rest (m, p.1, p.2)
      else searchLoop useLB lb1 lb2 davg rest (lenB, dmin, labB)

/-- np.round applied to 0.5 * (minL + maxL): round half to even applied to a
half-integer or integer value given by the natural number sum s. -/
def halfRoundEven (s : ℕ) : ℕ :=
  if s % 2 = 0 then s / 2
  else if (s / 2) % 2 = 0 then s / 2 else s / 2 + 1

/-- The truncated maximum search length: the sequence is cut at max_length,
so the effective maximum is the smaller of max_length and the sequence
length. -/
def adjustedMax (maxLen n : ℕ) : ℕ := min maxLen n

/-- The adjusted minimum search length: when min_length is not below the
effective maximum it is pulled down to max(1, max_length - 1). -/
def adjustedMin (minLen maxLen n : ℕ) : ℕ :=
  if adjustedMax maxLen n ≤ minLen then max 1 (adjustedMax maxLen n - 1) else minLen

/-- The middle value of the search range, the first candidate length
visited: np.round(0.5 * (min_length + max_length)). -/
def midLength (minLen maxLen n : ℕ) : ℕ :=
  halfRoundEven (adjustedMin minLen maxLen n + adjustedMax maxLen n)

/-- search_subsequence from segmentation.py.  The sequence is reduced to its
length n (the oracles lb1, lb2, davg give, for a candidate prefix length m,
the values of the two lower bound functions and of
average_distance_to_templates on the normalized prefix).  The code first
truncates to max_length, adjusts min_length, starts the search at the middle
length, and then visits the randomly permuted remaining lengths, given here
by perm (the permutation of np.arange(min_length, max_length + 1,
length_step) drawn by the code). -/
def search_subsequence (useLB : Bool) (lb1 lb2 : ℕ → Dist) (davg : ℕ → Dist × ℕ)
    (minLen maxLen n : ℕ) (perm : List ℕ) : ℕ × Dist × ℕ :=
  let mid := midLength minLen maxLen n
  searchLoop useLB lb1 lb2 davg (mid :: perm.filter (fun x => x ≠ mid)) (mid, ⊤, 0)

/-- The body of the inner offset scan of segment_repeat_sequences.  The
state is the pair (match, info_best), initially (False, [0, 0, np.inf, 0]).
All branches follow the code: outside the while guard the loop breaks with
the current state; a matching result with a different label breaks
immediately retaining info_best; a same-label result replaces info_best
exactly when its distance is strictly lower; a first match records itself;
after the offset increment the loop breaks when the offset has moved more
than 10 past the best offset or at least best length minus 1 past it, and
otherwise continues at the incremented offset (Sum.inr). -/
def scanBody {α : Type} (search : List α → SearchRes) (ths : List Dist)
    (minLen offsetStep : ℕ) (approx : Bool) (rem : List α) (offset : ℕ)
    (mtch : Bool) (best : BestInfo) : (Bool × BestInfo) ⊕ (ℕ × Bool × BestInfo) :=
  if rem.length - offset ≤ minLen then Sum.inl (mtch, best)
  else
    let r := search (rem.drop offset)
    let acc : Bool := decide (r.dist ≤ pyGetD ths ((r.label : ℤ) - 1))
    if acc ∧ mtch ∧ r.label ≠ best.label then Sum.inl (mtch, best)
    else
      let best' :=
        if acc then
          if mtch then
            if r.dist < best.dist then BestInfo.mk offset r.len r.dist r.label else best
          else BestInfo.mk offset r.len r.dist r.label
        else best
      let mtch' : Bool := mtch || acc
      let offset' := offset + (if mtch' then offsetStep else if approx then 5 * offsetStep else offsetStep)
      if mtch' ∧ (10 < offset' - best'.offset ∨ best'.len - 1 ≤ offset' - best'.offset) then
        Sum.inl (mtch', best')
      else Sum.inr (offset', mtch', best')

/-- The inner offset scan: iterate scanBody until it breaks; fuel bounds the
number of iterations (the driver passes enough fuel for any positive offset
step, and on exhaustion the current state is returned). -/
def scanLoop {α : Type} (search : List α → SearchRes) (ths : List Dist)
    (minLen offsetStep : ℕ) (approx : Bool) (rem : List α) :
    ℕ → ℕ → Bool × BestInfo → Bool × BestInfo
  | 0, _, st => st
  | fuel + 1, offset, st =>
    match scanBody search ths minLen offsetStep approx rem offset st.1 st.2 with
    | Sum.inl res => res
    | Sum.inr (offset', st') => scanLoop search ths minLen offsetStep approx rem fuel offset' st'

/-- The outer loop of segment_repeat_sequences.  While the remainder is
longer than min_length the offset scan runs; on a match the optional
unmatched prefix, the matched span and the recursive segmentation of the
rest are emitted; otherwise the whole remainder is emitted with label 0.
The final nonempty leftover also gets label 0.  Fuel bounds the number of
outer iterations; data.length + 1 suffices whenever every search result has
positive length, which is what the code guarantees with min_length at least
one. -/
def segmentLoop {α : Type} (search : List α → SearchRes) (ths : List Dist)
    (minLen offsetStep : ℕ) (approx : Bool) : ℕ → List α → List (List α) × List ℕ
  | 0, rem => if rem.length = 0 then ([], []) else ([rem], [0])
  | fuel + 1, rem =>
    if rem.length ≤ minLen then (if rem.length = 0 then ([], []) else ([rem], [0]))
    else
      let s := scanLoop search ths minLen offsetStep approx rem (rem.length + 1) 0 (false, BestInfo.mk 0 0 ⊤ 0)
      if s.1 then
        let best := s.2
        let rest := segmentLoop search ths minLen offsetStep approx fuel (rem.drop (best.offset + best.len))
        if 0 < best.offset then
          (rem.take best.offset :: (rem.drop best.offset).take best.len :: rest.1,
           0 :: best.label :: rest.2)
        else ((rem.drop best.offset).take best.len :: rest.1, best.label :: rest.2)
      else ([rem], [0])

/-- segment_repeat_sequences from segmentation.py, over an abstract searcher
returning (len_best, d_min, label_best) for each suffix of the data. -/
def segment_repeat_sequences {α : Type} (search : List α → SearchRes) (ths : List Dist)
    (minLen offsetStep : ℕ) (approx : Bool) (data : List α) : List (List α) × List ℕ :=
  segmentLoop search ths minLen offsetStep approx (data.length + 1) data

/-- The searcher the driver uses: search_subsequence instantiated with
average_distance_to_templates over the per-template distance oracle dtwOr
(dtwOr s m lists, per action group, the normalized kernel distances of the
candidate prefix of length m of the suffix s) and the two lower bound
oracles. -/
def searchOf {α : Type} (dtwOr : List α → ℕ → List (List Dist))
    (lb1Or lb2Or : List α → ℕ → Dist) (perm : List α → List ℕ)
    (minLen maxLen : ℕ) : List α → SearchRes := fun s =>
  let r := search_subsequence true (lb1Or s) (lb2Or s)
    (fun m => average_distance_to_templates (dtwOr s m)) minLen maxLen s.length (perm s)
  SearchRes.mk r.1 r.2.1 r.2.2

/-- The full pipeline: the driver instantiated with the searcher above. -/
def segmentFull {α : Type} (dtwOr : List α → ℕ → List (List Dist))
    (lb1Or lb2Or : List α → ℕ → Dist) (perm : List α → List ℕ) (ths : List Dist)
    (minLen maxLen offsetStep : ℕ) (approx : Bool) (data : List α) :
    List (List α) × List ℕ :=
  segment_repeat_sequences (searchOf dtwOr lb1Or lb2Or perm minLen maxLen)
    ths minLen offsetStep approx data

/-- The tracked best b records exactly the searcher output at some offset o
of the remainder, and that output passed the driver threshold test. -/
def AcceptedAt {α : Type} (search : List α → SearchRes) (ths : List Dist) (rem : List α)
    (o : ℕ) (b : BestInfo) : Prop :=
  b.offset = o ∧ b.len = (search (rem.drop o)).len ∧ b.dist = (search (rem.drop o)).dist ∧
  b.label = (search (rem.drop o)).label ∧
  (search (rem.drop o)).dist ≤ pyGetD ths (((search (rem.drop o)).label : ℤ) - 1)

/-- Scan states for which a reported match is justified by an accepted
searcher output at some offset. -/
def ScanOk {α : Type} (search : List α → SearchRes) (ths : List Dist) (rem : List α)
    (st : Bool × BestInfo) : Prop :=
  st.1 = true → ∃ o, AcceptedAt search ths rem o st.2

/-- The band half-width of the Sakoe-Chiba mask from utils.py:
max(int(np.ceil(warping_window * max(sz1, sz2))), abs(sz1 - sz2) + 1). -/
def sakoeChibaWidth (sz1 sz2 : ℕ) (w : ℚ) : ℕ :=
  max (Int.ceil (w * ((max sz1 sz2 : ℕ) : ℚ))).toNat (((sz1 : ℤ) - (sz2 : ℤ)).natAbs + 1)

/-- sakoe_chiba_mask from utils.py as a cell function on the sz1 by sz2
grid: the array starts all np.inf and rows (columns, in the second branch)
get zeros on the slice [max(0, i - W), min(sz, i + W) + 1). -/
def sakoe_chiba_mask (sz1 sz2 : ℕ) (w : ℚ) : ℕ → ℕ → Dist :=
  let W := sakoeChibaWidth sz1 sz2 w
  if sz1 ≤ sz2 then
    fun i j => if i - W ≤ j ∧ j < min sz2 (i + W) + 1 then 0 else ⊤
  else
    fun i j => if j - W ≤ i ∧ i < min sz1 (j + W) + 1 then 0 else ⊤

/-- Monotone warping paths through zero cells of a mask: start at (0, 0) and
move right, down, or diagonally, only through cells where the mask is 0. -/
inductive ZeroPath (mask : ℕ → ℕ → Dist) : ℕ → ℕ → Prop where
  | start : mask 0 0 = 0 → ZeroPath mask 0 0
  | right {i j : ℕ} : ZeroPath mask i j → mask i (j + 1) = 0 → ZeroPath mask i (j + 1)
  | down {i j : ℕ} : ZeroPath mask i j → mask (i + 1) j = 0 → ZeroPath mask (i + 1) j
  | diag {i j : ℕ} : ZeroPath mask i j → mask (i + 1) (j + 1) = 0 →
      ZeroPath mask (i + 1) (j + 1)

/-- np.percentile with the default linear interpolation, on a list of
rational distance samples: sort ascending, take position q / 100 * (n - 1),
and interpolate linearly between the two neighbouring order statistics. -/
def np_percentile (xs : List ℚ) (q : ℚ) : ℚ :=
  let s := xs.insertionSort (· ≤ ·)
  let n := s.length
  let pos := q / 100 * ((n : ℚ) - 1)
  let i := (Int.floor pos).toNat
  let frac := pos - Int.floor pos
  s.getD i 0 + frac * (s.getD (min (i + 1) (n - 1)) 0 - s.getD i 0)

/-- The per-action threshold computed by find_distance_thresholds:
v = np.percentile(distances, [0, 25, 50, 75, 100]) and
th = max(v[4], v[3] + 1.5 * (v[3] - v[1])). -/
def distance_threshold (distances : List ℚ) : ℚ :=
  max (np_percentile distances 100)
    (np_percentile distances 75 +
      3 / 2 * (np_percentile distances 75 - np_percentile distances 25))

/-- A real valued multivariate sequence: a length and a function giving, for
point index i and coordinate k, the value. -/
structure RSeq where
  len : ℕ
  val : ℕ → ℕ → ℝ

/-- Pointwise squared Euclidean distance between point i of s and point j of
t in dimension dm, the local cost of the DTW kernel. -/
noncomputable def sqCost (dm : ℕ) (s t : RSeq) (i j : ℕ) : ℝ :=
  ∑ k ∈ Finset.range dm, (s.val i k - t.val j k) ^ 2

/-- The accumulated cost matrix of the DTW kernel of tslearn (njit_dtw),
modelled from the spec contract of the external Warped Distance Kernel:
cell (i, j) adds its local cost to the minimum of the three predecessor
cells, with first row and column accumulating linearly. -/
noncomputable def dtwAcc (c : ℕ → ℕ → ℝ) : ℕ → ℕ → ℝ
  | 0, 0 => c 0 0
  | i + 1, 0 => c (i + 1) 0 + dtwAcc c i 0
  | 0, j + 1 => c 0 (j + 1) + dtwAcc c 0 j
  | i + 1, j + 1 =>
    c (i + 1) (j + 1) +
      min (min (dtwAcc c i (j + 1)) (dtwAcc c (i + 1) j)) (dtwAcc c i j)

/-- Per-coordinate minimum over the points of a sequence, the min field of
template_info_tuple (np.min over the rows). -/
noncomputable def infoMin (t : RSeq) (k : ℕ) : ℝ :=
  ((List.range t.len).map (fun i => t.val i k)).foldl min (t.val 0 k)

/-- Per-coordinate maximum over the points of a sequence, the max field of
template_info_tuple (np.max over the rows). -/
noncomputable def infoMax (t : RSeq) (k : ℕ) : ℝ :=
  ((List.range t.len).map (fun i => t.val i k)).foldl max (t.val 0 k)

/-- The exact squared deviation of the first values and of the last values,
dev_first_last of average_lb_distance_to_templates2 (also the quantity
under the square root in average_lb_distance_to_templates1). -/
noncomputable def devFirstLast (dm : ℕ) (s t : RSeq) : ℝ :=
  sqCost dm s t 0 0 + sqCost dm s t (s.len - 1) (t.len - 1)

/-- The per-template endpoint lower bound of
average_lb_distance_to_templates1: compare only first and last values and
normalize by the combined length. -/
noncomputable def lb_endpoint (dm : ℕ) (s t : RSeq) : ℝ :=
  Real.sqrt (devFirstLast dm s t) / ((s.len : ℝ) + (t.len : ℝ))

/-- average_lb_distance_to_templates1 from segmentation.py over the reals;
the loop keeps the strict running minimum starting at np.inf, which equals
this fold of min over the group averages. -/
noncomputable def average_lb_distance_to_templates1 (dm : ℕ) (s : RSeq)
    (gs : List (List RSeq)) : WithTop ℝ :=
  (gs.map (fun g =>
    (((g.map (lb_endpoint dm s)).sum / (g.length : ℝ) : ℝ) : WithTop ℝ))).foldl min ⊤

/-- The clamped envelope deviation of point i of s against the min and max
envelope of t: the row contribution r1 and r2 of
average_lb_distance_to_templates2. -/
noncomputable def rowDev (dm : ℕ) (s t : RSeq) (i : ℕ) : ℝ :=
  ∑ k ∈ Finset.range dm,
    ((max (s.val i k - infoMax t k) 0) ^ 2 + (max (infoMin t k - s.val i k) 0) ^ 2)

/-- The per-template envelope lower bound of
average_lb_distance_to_templates2: the first and last rows are zeroed out
and replaced by the exact endpoint deviation, the rest contribute their
clamped envelope deviation; both envelope directions are computed and the
larger is kept. -/
noncomputable def lb_envelope (dm : ℕ) (s t : RSeq) : ℝ :=
  max
    (Real.sqrt (((Finset.range s.len).filter (fun i => i ≠ 0 ∧ i ≠ s.len - 1)).sum
        (rowDev dm s t) + devFirstLast dm s t) / ((s.len : ℝ) + (t.len : ℝ)))
    (Real.sqrt (((Finset.range t.len).filter (fun j => j ≠ 0 ∧ j ≠ t.len - 1)).sum
        (rowDev dm t s) + devFirstLast dm s t) / ((s.len : ℝ) + (t.len : ℝ)))

/-- average_lb_distance_to_templates2 from segmentation.py over the
reals. -/
noncomputable def average_lb_distance_to_templates2 (dm : ℕ) (s : RSeq)
    (gs : List (List RSeq)) : WithTop ℝ :=
  (gs.map (fun g =>
    (((g.map (lb_envelope dm s)).sum / (g.length : ℝ) : ℝ) : WithTop ℝ))).foldl min ⊤

/-- The DTW distance of the external kernel: the square root of the
accumulated cost at the final cell, with the mask added to the local
cost. -/
noncomputable def njit_dtw (dm : ℕ) (mask : ℕ → ℕ → ℝ) (s t : RSeq) : ℝ :=
  Real.sqrt (dtwAcc (fun i j => sqCost dm s t i j + mask i j) (s.len - 1) (t.len - 1))

/-- The minimum over groups of the average normalized kernel distance, the
val_min computed by average_distance_to_templates, over the reals; mf gives
the mask from the two lengths (np.zeros when the warping window is None,
the Sakoe-Chiba mask otherwise). -/
noncomputable def average_distance_to_templates_real (dm : ℕ)
    (mf : ℕ → ℕ → ℕ → ℕ → ℝ) (s : RSeq) (gs : List (List RSeq)) : WithTop ℝ :=
  (gs.map (fun g =>
    (((g.map (fun t => njit_dtw dm (mf s.len t.len) s t / ((s.len : ℝ) + (t.len : ℝ)))).sum /
      (g.length : ℝ) : ℝ) : WithTop ℝ))).foldl min ⊤

/-- A one-point sequence with constant value 0, half of the counterexample
pair for the lower-bound claim. -/
noncomputable def cxS : RSeq := ⟨1, fun _ _ => 0⟩

/-- A one-point template with constant value 1, the other half of the
counterexample pair. -/
noncomputable def cxT : RSeq := ⟨1, fun _ _ => 1⟩

/-- A two-point sequence with constant value 0, used to instantiate the
amended lower-bound theorem. -/
noncomputable def cxW : RSeq := ⟨2, fun _ _ => 0⟩

/-- Concatenating the segments produced from any remainder gives back that
remainder, whatever the scan returns and whatever the fuel is. -/
theorem segmentLoop_join {α : Type} (search : List α → SearchRes) (ths : List Dist)
    (minLen offsetStep : ℕ) (approx : Bool) :
    ∀ fuel rem, ((segmentLoop search ths minLen offsetStep approx fuel rem).1).flatten = rem := by
  intro fuel
  induction fuel with
  | zero =>
    intro rem
    by_cases h : rem.length = 0
    · simp [segmentLoop, h, List.length_eq_zero.mp h]
    · simp [segmentLoop, h]
  | succ fuel ih =>
    intro rem
    simp only [segmentLoop]
    split
    · split
      · next h => simp [List.length_eq_zero.mp h]
      · simp
    · split
      · split
        · next hoff =>
          simp only [List.flatten_cons, ih]
          rw [show ∀ o l : ℕ, o + l = l + o from fun o l => Nat.add_comm o l,
            ← List.drop_drop, List.take_append_drop, List.take_append_drop]
        · next hoff =>
          have h0 : (scanLoop search ths minLen offsetStep approx rem (rem.length + 1) 0
              (false, BestInfo.mk 0 0 ⊤ 0)).2.offset = 0 := by omega
          simp only [List.flatten_cons, ih, h0, List.drop_zero, Nat.zero_add,
            List.take_append_drop]
      · simp

/-- C1: for every input series, the segments returned by
segment_repeat_sequences are contiguous and exhaustive: their concatenation
in order reproduces the original series exactly, for any searcher, any
thresholds and any driver parameters. -/
theorem c1_segments_reconstruct {α : Type} (search : List α → SearchRes) (ths : List Dist)
    (minLen offsetStep : ℕ) (approx : Bool) (data : List α) :
    ((segment_repeat_sequences search ths minLen offsetStep approx data).1).flatten = data :=
  segmentLoop_join search ths minLen offsetStep approx (data.length + 1) data

/-- When no offset of the remainder yields an acceptable candidate (the
returned distance always exceeds the threshold looked up at the returned
label), the scan never leaves the non-matching state. -/
theorem scanLoop_no_accept {α : Type} (search : List α → SearchRes) (ths : List Dist)
    (minLen offsetStep : ℕ) (approx : Bool) (rem : List α)
    (hrej : ∀ o : ℕ, ¬ ((search (rem.drop o)).dist ≤ pyGetD ths (((search (rem.drop o)).label : ℤ) - 1))) :
    ∀ fuel offset b, scanLoop search ths minLen offsetStep approx rem fuel offset (false, b) = (false, b) := by
  intro fuel
  induction fuel with
  | zero => intro offset b; simp [scanLoop]
  | succ fuel ih =>
    intro offset b
    have hacc : decide ((search (rem.drop offset)).dist ≤
        pyGetD ths (((search (rem.drop offset)).label : ℤ) - 1)) = false :=
      decide_eq_false (hrej offset)
    simp only [scanLoop, scanBody, hacc, Bool.false_eq_true, false_and, and_false, if_neg,
      ite_false, Bool.or_false, if_false]
    by_cases hC : rem.length - offset ≤ minLen
    · rw [if_pos hC]
    · rw [if_neg hC]
      exact ih _ b

/-- A nonempty series in which every offset is rejected comes back as one
single unmatched segment with label 0. -/
theorem segment_unmatched_eq {α : Type} (search : List α → SearchRes) (ths : List Dist)
    (minLen offsetStep : ℕ) (approx : Bool) (data : List α) (hne : data ≠ [])
    (hrej : ∀ o : ℕ, ¬ ((search (data.drop o)).dist ≤ pyGetD ths (((search (data.drop o)).label : ℤ) - 1))) :
    segment_repeat_sequences search ths minLen offsetStep approx data = ([data], [0]) := by
  unfold segment_repeat_sequences
  simp only [segmentLoop]
  split
  · split
    · next h => exact absurd (List.length_eq_zero.mp h) hne
    · rfl
  · rw [scanLoop_no_accept search ths minLen offsetStep approx data hrej]
    simp

/-- C7 amended: segment_repeat_sequences does not fail on an empty input
series: it returns the empty segmentation.  It never fails on unmatched
input: when no offset yields an acceptable candidate, a nonempty series
comes back as one single unmatched segment with label 0. -/
theorem c7_empty_and_unmatched {α : Type} (search : List α → SearchRes) (ths : List Dist)
    (minLen offsetStep : ℕ) (approx : Bool) (data : List α) (hne : data ≠ [])
    (hrej : ∀ o : ℕ, ¬ ((search (data.drop o)).dist ≤ pyGetD ths (((search (data.drop o)).label : ℤ) - 1))) :
    segment_repeat_sequences search ths minLen offsetStep approx ([] : List α) = ([], []) ∧
    segment_repeat_sequences search ths minLen offsetStep approx data = ([data], [0]) := by
  constructor
  · simp [segment_repeat_sequences, segmentLoop]
  · exact segment_unmatched_eq search ths minLen offsetStep approx data hne hrej

/-- C7 counterexample to the claim as stated: on the empty input series the
driver does not fail; it runs to completion and returns the empty list of
segments and labels (rather than raising an error). -/
theorem c7_counterexample :
    segment_repeat_sequences (fun _ => SearchRes.mk 2 ((5 : ℚ) : Dist) 1)
      [((1 : ℚ) : Dist)] 1 1 false ([] : List ℕ) = ([], []) := by
  decide

/-- C7 witness: a concrete nonempty series in which every candidate is
rejected yields the single unmatched segment. -/
theorem c7_witness :
    segment_repeat_sequences (fun _ => SearchRes.mk 2 ((5 : ℚ) : Dist) 1)
      [((1 : ℚ) : Dist)] 1 1 false ([] : List ℕ) = ([], []) ∧
    segment_repeat_sequences (fun _ => SearchRes.mk 2 ((5 : ℚ) : Dist) 1)
      [((1 : ℚ) : Dist)] 1 1 false [10, 20, 30] = ([[10, 20, 30]], [0]) :=
  c7_empty_and_unmatched (fun _ => SearchRes.mk 2 ((5 : ℚ) : Dist) 1)
    [((1 : ℚ) : Dist)] 1 1 false [10, 20, 30] (by decide)
    (by
      intro o
      show ¬(((5 : ℚ) : Dist) ≤ pyGetD [((1 : ℚ) : Dist)] (((1 : ℕ) : ℤ) - 1))
      decide)

/-- C4: within one driver scan, once a best match is tracked, an acceptable
candidate at the current offset with a different label terminates the scan
immediately and the previously tracked best is returned unchanged, while an
acceptable candidate with the same label replaces the tracked best exactly
when its average distance is strictly lower; otherwise the tracked best is
kept and the scan moves on. -/
theorem c4_scan_replace_and_stop {α : Type} (search : List α → SearchRes) (ths : List Dist)
    (minLen offsetStep : ℕ) (approx : Bool) (rem : List α) (fuel offset : ℕ) (best : BestInfo)
    (hlive : ¬ (rem.length - offset ≤ minLen))
    (hacc : (search (rem.drop offset)).dist ≤
      pyGetD ths (((search (rem.drop offset)).label : ℤ) - 1)) :
    ((search (rem.drop offset)).label ≠ best.label →
      scanLoop search ths minLen offsetStep approx rem (fuel + 1) offset (true, best) =
        (true, best)) ∧
    ((search (rem.drop offset)).label = best.label →
      scanLoop search ths minLen offsetStep approx rem (fuel + 1) offset (true, best) =
        (let r := search (rem.drop offset)
         let b' := if r.dist < best.dist then BestInfo.mk offset r.len r.dist r.label else best
         let o' := offset + offsetStep
         if 10 < o' - b'.offset ∨ b'.len - 1 ≤ o' - b'.offset then (true, b')
         else scanLoop search ths minLen offsetStep approx rem fuel o' (true, b'))) := by
  have hd : decide ((search (rem.drop offset)).dist ≤
      pyGetD ths (((search (rem.drop offset)).label : ℤ) - 1)) = true := decide_eq_true hacc
  constructor
  · intro hne
    simp [scanLoop, scanBody, hlive, hd, hne]
  · intro heq
    have hacc2 : (search (rem.drop offset)).dist ≤ pyGetD ths ((best.label : ℤ) - 1) :=
      heq ▸ hacc
    simp [scanLoop, scanBody, hlive, hd, heq, hacc2]
    split_ifs <;> rfl

/-- C4 witness: the theorem applied at two concrete scan states with the
tracked best carrying label 2 and distance 3.  In the first the searcher
reports an acceptable candidate with the different label 1, and the scan
stops at once returning the old best unchanged.  In the second the searcher
reports an acceptable candidate with the same label 2 and the strictly
lower distance 2, and the tracked best is replaced by it: the scan comes
back with the new offset 0, length 3, distance 2 record. -/
theorem c4_witness :
    (scanLoop (fun (_ : List ℕ) => SearchRes.mk 3 ((2 : ℚ) : Dist) 1)
        [((10 : ℚ) : Dist), ((10 : ℚ) : Dist)] 1 1 false (List.range 6) (4 + 1) 0
        (true, BestInfo.mk 0 5 ((3 : ℚ) : Dist) 2) =
      (true, BestInfo.mk 0 5 ((3 : ℚ) : Dist) 2)) ∧
    (scanLoop (fun (_ : List ℕ) => SearchRes.mk 3 ((2 : ℚ) : Dist) 2)
        [((10 : ℚ) : Dist), ((10 : ℚ) : Dist)] 1 1 false (List.range 6) (4 + 1) 0
        (true, BestInfo.mk 0 5 ((3 : ℚ) : Dist) 2) =
      (true, BestInfo.mk 0 3 ((2 : ℚ) : Dist) 2)) := by
  constructor
  · exact (c4_scan_replace_and_stop (fun (_ : List ℕ) => SearchRes.mk 3 ((2 : ℚ) : Dist) 1)
      [((10 : ℚ) : Dist), ((10 : ℚ) : Dist)] 1 1 false (List.range 6) 4 0
      (BestInfo.mk 0 5 ((3 : ℚ) : Dist) 2) (by decide) (by decide)).1 (by decide)
  · rw [(c4_scan_replace_and_stop (fun (_ : List ℕ) => SearchRes.mk 3 ((2 : ℚ) : Dist) 2)
      [((10 : ℚ) : Dist), ((10 : ℚ) : Dist)] 1 1 false (List.range 6) 4 0
      (BestInfo.mk 0 5 ((3 : ℚ) : Dist) 2) (by decide) (by decide)).2 rfl]
    decide

/-- C8 amended: once a match is tracked, one scan iteration either stops
immediately on an acceptable different-label candidate, or updates the best
on a strictly better same-label candidate, advances the offset by one step,
and then terminates early exactly when the new offset has advanced more than
10 past the tracked best offset or has advanced at least the tracked best
matched length minus 1 (the code tests advance greater or equal to length
minus 1, not strictly greater). -/
theorem c8_scan_termination {α : Type} (search : List α → SearchRes) (ths : List Dist)
    (minLen offsetStep : ℕ) (approx : Bool) (rem : List α) (fuel offset : ℕ) (best : BestInfo)
    (hlive : ¬ (rem.length - offset ≤ minLen)) :
    scanLoop search ths minLen offsetStep approx rem (fuel + 1) offset (true, best) =
      (let r := search (rem.drop offset)
       let acc := decide (r.dist ≤ pyGetD ths ((r.label : ℤ) - 1))
       if acc ∧ r.label ≠ best.label then (true, best)
       else
         let b' := if acc then
             (if r.dist < best.dist then BestInfo.mk offset r.len r.dist r.label else best)
           else best
         let o' := offset + offsetStep
         if 10 < o' - b'.offset ∨ b'.len - 1 ≤ o' - b'.offset then (true, b')
         else scanLoop search ths minLen offsetStep approx rem fuel o' (true, b')) := by
  simp [scanLoop, scanBody, hlive]
  split_ifs <;> try rfl

/-- C8 witness: the step equation applied at a concrete scan state. -/
theorem c8_witness :
    (¬ ((List.range 6).length - 0 ≤ 1)) ∧
    scanLoop (fun (_ : List ℕ) => SearchRes.mk 3 ((2 : ℚ) : Dist) 1)
      [((10 : ℚ) : Dist)] 1 1 false (List.range 6) (4 + 1) 0
      (true, BestInfo.mk 0 5 ((3 : ℚ) : Dist) 1) =
      (let r := (fun (_ : List ℕ) => SearchRes.mk 3 ((2 : ℚ) : Dist) 1) ((List.range 6).drop 0)
       let acc := decide (r.dist ≤ pyGetD [((10 : ℚ) : Dist)] ((r.label : ℤ) - 1))
       if acc ∧ r.label ≠ (BestInfo.mk 0 5 ((3 : ℚ) : Dist) 1).label then
         (true, BestInfo.mk 0 5 ((3 : ℚ) : Dist) 1)
       else
         let b' := if acc then
             (if r.dist < (BestInfo.mk 0 5 ((3 : ℚ) : Dist) 1).dist then
               BestInfo.mk 0 r.len r.dist r.label else BestInfo.mk 0 5 ((3 : ℚ) : Dist) 1)
           else BestInfo.mk 0 5 ((3 : ℚ) : Dist) 1
         let o' := 0 + 1
         if 10 < o' - b'.offset ∨ b'.len - 1 ≤ o' - b'.offset then (true, b')
         else scanLoop (fun (_ : List ℕ) => SearchRes.mk 3 ((2 : ℚ) : Dist) 1)
           [((10 : ℚ) : Dist)] 1 1 false (List.range 6) 4 o' (true, b')) :=
  ⟨by decide, c8_scan_termination (fun (_ : List ℕ) => SearchRes.mk 3 ((2 : ℚ) : Dist) 1)
    [((10 : ℚ) : Dist)] 1 1 false (List.range 6) 4 0 (BestInfo.mk 0 5 ((3 : ℚ) : Dist) 1)
    (by decide)⟩

/-- C8 counterexample to the claim as stated: a concrete scan in which the
tracked best has matched length 5 at offset 0 and a strictly better
acceptable same-label candidate sits at offset 4.  The code stops as soon as
the advance reaches length minus 1 = 4, which is neither more than 10 steps
nor strictly more than length minus 1, so the better candidate at offset 4
is never visited and the scan returns the original best. -/
theorem c8_counterexample :
    scanLoop
      (fun (s : List ℕ) => if s.length = 16 then SearchRes.mk 5 ((0 : ℚ) : Dist) 1
        else SearchRes.mk 5 ((1 : ℚ) : Dist) 1)
      [((2 : ℚ) : Dist)] 1 1 false (List.range 20) 21 0 (false, BestInfo.mk 0 0 ⊤ 0) =
      (true, BestInfo.mk 0 5 ((1 : ℚ) : Dist) 1) ∧
    ((fun (s : List ℕ) => if s.length = 16 then SearchRes.mk 5 ((0 : ℚ) : Dist) 1
        else SearchRes.mk 5 ((1 : ℚ) : Dist) 1) ((List.range 20).drop 4)).dist <
      ((1 : ℚ) : Dist) ∧
    ((fun (s : List ℕ) => if s.length = 16 then SearchRes.mk 5 ((0 : ℚ) : Dist) 1
        else SearchRes.mk 5 ((1 : ℚ) : Dist) 1) ((List.range 20).drop 4)).dist ≤
      pyGetD [((2 : ℚ) : Dist)] 0 ∧
    ¬ (10 < 4 - 0) ∧ ¬ (5 - 1 < 4 - 0) := by
  refine ⟨by decide, by decide, by decide, by decide, by decide⟩

/-- The group loop either leaves its state untouched or moves to a strictly
smaller distance with a one-based label inside the scanned index range. -/
theorem avgLoop_spec : ∀ (ds : List (List Dist)) (i : ℕ) (vmin : Dist) (lab : ℕ),
    avgLoop ds i (vmin, lab) = (vmin, lab) ∨
    (i + 1 ≤ (avgLoop ds i (vmin, lab)).2 ∧ (avgLoop ds i (vmin, lab)).2 ≤ i + ds.length ∧
      (avgLoop ds i (vmin, lab)).1 < vmin) := by
  intro ds
  induction ds with
  | nil => intro i vmin lab; left; rfl
  | cons g rest ih =>
    intro i vmin lab
    by_cases hlt : divDist (sumDist g) g.length < vmin
    · right
      have h2 := ih (i + 1) (divDist (sumDist g) g.length) (i + 1)
      simp only [avgLoop, hlt, if_pos]
      rcases h2 with h2 | h2
      · rw [h2]; exact ⟨le_refl _, by simp only [List.length_cons]; omega, hlt⟩
      · exact ⟨by omega, by simp only [List.length_cons]; omega, lt_trans h2.2.2 hlt⟩
    · have h2 := ih (i + 1) vmin lab
      simp only [avgLoop, hlt, if_neg, if_false]
      rcases h2 with h2 | h2
      · left; exact h2
      · right; exact ⟨by omega, by simp only [List.length_cons]; omega, h2.2.2⟩

/-- If a group average is strictly below anything, the returned label is a
valid one-based group index. -/
theorem avg_label_of_lt (ds : List (List Dist)) (d : Dist)
    (h : (average_distance_to_templates ds).1 < d) :
    1 ≤ (average_distance_to_templates ds).2 ∧
      (average_distance_to_templates ds).2 ≤ ds.length := by
  rcases avgLoop_spec ds 0 ⊤ 1 with hs | hs
  · exfalso
    have : (average_distance_to_templates ds).1 = ⊤ := by
      simp [average_distance_to_templates, hs]
    rw [this] at h
    exact (not_top_lt h)
  · exact ⟨by simpa using hs.1, by simpa using hs.2.1⟩

/-- The candidate loop keeps its best label inside 0..K when the exact
average distance comes from average_distance_to_templates over groups whose
count is bounded by K. -/
theorem searchLoop_label (useLB : Bool) (lb1 lb2 : ℕ → Dist) (dtwOr : ℕ → List (List Dist))
    (K : ℕ) (hK : ∀ m, (dtwOr m).length ≤ K) :
    ∀ (ms : List ℕ) (st : ℕ × Dist × ℕ), st.2.2 ≤ K →
      (searchLoop useLB lb1 lb2 (fun m => average_distance_to_templates (dtwOr m)) ms st).2.2 ≤ K := by
  intro ms
  induction ms with
  | nil => intro st h; simpa [searchLoop] using h
  | cons m rest ih =>
    intro st h
    obtain ⟨lenB, dmin, labB⟩ := st
    simp only [searchLoop]
    split
    · exact ih _ h
    · split
      · exact ih _ h
      · split
        · next hlt =>
          refine ih _ ?_
          exact le_trans (avg_label_of_lt (dtwOr m) dmin hlt).2 (hK m)
        · exact ih _ h

/-- The returned label of search_subsequence is inside 0..K whenever the
group count of the distance oracle is bounded by K. -/
theorem search_subsequence_label (lb1 lb2 : ℕ → Dist) (dtwOr : ℕ → List (List Dist))
    (minLen maxLen n K : ℕ) (perm : List ℕ) (hK : ∀ m, (dtwOr m).length ≤ K) :
    (search_subsequence true lb1 lb2 (fun m => average_distance_to_templates (dtwOr m))
      minLen maxLen n perm).2.2 ≤ K :=
  searchLoop_label true lb1 lb2 dtwOr K hK _ _ (Nat.zero_le K)

/-- One scan step preserves ScanOk, whether it breaks or continues. -/
theorem scanBody_ok {α : Type} (search : List α → SearchRes) (ths : List Dist)
    (minLen offsetStep : ℕ) (approx : Bool) (rem : List α) (offset : ℕ)
    (mtch : Bool) (best : BestInfo) (h : ScanOk search ths rem (mtch, best)) :
    Sum.elim (ScanOk search ths rem) (fun p => ScanOk search ths rem p.2)
      (scanBody search ths minLen offsetStep approx rem offset mtch best) := by
  by_cases h1 : rem.length - offset ≤ minLen
  · simp only [scanBody, h1, if_pos, Sum.elim_inl]
    exact h
  · by_cases hacc : (search (rem.drop offset)).dist ≤
        pyGetD ths (((search (rem.drop offset)).label : ℤ) - 1)
    · cases mtch with
      | true =>
        by_cases hne : (search (rem.drop offset)).label ≠ best.label
        · simp [scanBody, h1, hacc, hne]
          exact h
        · simp only [scanBody, h1, if_neg, ite_false, decide_eq_true hacc, hne, true_and,
            and_false, false_and, and_true, if_false, ite_true, Bool.true_or]
          by_cases hlt : (search (rem.drop offset)).dist < best.dist
          · simp only [hlt, ite_true, if_pos]
            split
            · exact fun _ => ⟨offset, rfl, rfl, rfl, rfl, hacc⟩
            · exact fun _ => ⟨offset, rfl, rfl, rfl, rfl, hacc⟩
          · simp only [hlt, ite_false, if_neg, if_false]
            split
            · exact h
            · exact h
      | false =>
        simp [scanBody, h1, hacc]
        split
        · exact fun _ => ⟨offset, rfl, rfl, rfl, rfl, hacc⟩
        · exact fun _ => ⟨offset, rfl, rfl, rfl, rfl, hacc⟩
    · simp [scanBody, h1, hacc]
      split_ifs <;> exact h

/-- Whenever the scan reports a match, the tracked best it returns records
the accepted searcher output of some offset. -/
theorem scanLoop_ok {α : Type} (search : List α → SearchRes) (ths : List Dist)
    (minLen offsetStep : ℕ) (approx : Bool) (rem : List α) :
    ∀ (fuel offset : ℕ) (st : Bool × BestInfo), ScanOk search ths rem st →
      ScanOk search ths rem (scanLoop search ths minLen offsetStep approx rem fuel offset st) := by
  intro fuel
  induction fuel with
  | zero => intro offset st h; simpa [scanLoop] using h
  | succ fuel ih =>
    intro offset st h
    have hb := scanBody_ok search ths minLen offsetStep approx rem offset st.1 st.2 h
    simp only [scanLoop]
    cases hcase : scanBody search ths minLen offsetStep approx rem offset st.1 st.2 with
    | inl res =>
      rw [hcase] at hb
      exact hb
    | inr p =>
      rw [hcase] at hb
      exact ih p.1 p.2 hb

/-- Every (segment, label) pair emitted by the driver loop has its label in
0..K (when the searcher labels are bounded by K), and a nonzero label comes
with an accepted searcher output whose span is exactly that segment. -/
theorem segmentLoop_labels {α : Type} (search : List α → SearchRes) (ths : List Dist)
    (minLen offsetStep K : ℕ) (approx : Bool) (hlab : ∀ s, (search s).label ≤ K) :
    ∀ (fuel : ℕ) (rem : List α) (seg : List α) (lab : ℕ),
      (seg, lab) ∈ ((segmentLoop search ths minLen offsetStep approx fuel rem).1).zip
        ((segmentLoop search ths minLen offsetStep approx fuel rem).2) →
      lab ≤ K ∧ (lab ≠ 0 → ∃ o : ℕ,
        seg = (rem.drop o).take ((search (rem.drop o)).len) ∧
        lab = (search (rem.drop o)).label ∧
        (search (rem.drop o)).dist ≤ pyGetD ths (((search (rem.drop o)).label : ℤ) - 1)) := by
  intro fuel
  induction fuel with
  | zero =>
    intro rem seg lab hmem
    by_cases h : rem.length = 0
    · simp [segmentLoop, h] at hmem
    · simp [segmentLoop, h] at hmem
      exact ⟨hmem.2 ▸ Nat.zero_le K, fun h0 => absurd hmem.2 h0⟩
  | succ fuel ih =>
    intro rem seg lab hmem
    by_cases hmin : rem.length ≤ minLen
    · by_cases h : rem.length = 0
      · simp [segmentLoop, hmin, h] at hmem
      · simp [segmentLoop, hmin, h] at hmem
        exact ⟨hmem.2 ▸ Nat.zero_le K, fun h0 => absurd hmem.2 h0⟩
    · simp only [segmentLoop, hmin, if_neg, if_false] at hmem
      set s := scanLoop search ths minLen offsetStep approx rem (rem.length + 1) 0
        (false, BestInfo.mk 0 0 ⊤ 0) with hs
      by_cases hm : s.1 = true
      · have hok : ScanOk search ths rem s :=
          scanLoop_ok search ths minLen offsetStep approx rem (rem.length + 1) 0
            (false, BestInfo.mk 0 0 ⊤ 0) (by intro hc; simp at hc)
        obtain ⟨o, hAcc⟩ := hok hm
        obtain ⟨hAo, hAl, hAd, hAb, hAth⟩ := hAcc
        simp only [hm, if_true] at hmem
        have hrest : ∀ seg2 lab2,
            (seg2, lab2) ∈ ((segmentLoop search ths minLen offsetStep approx fuel
              (rem.drop (s.2.offset + s.2.len))).1).zip
              ((segmentLoop search ths minLen offsetStep approx fuel
                (rem.drop (s.2.offset + s.2.len))).2) →
            lab2 ≤ K ∧ (lab2 ≠ 0 → ∃ o2 : ℕ,
              seg2 = (rem.drop o2).take ((search (rem.drop o2)).len) ∧
              lab2 = (search (rem.drop o2)).label ∧
              (search (rem.drop o2)).dist ≤
                pyGetD ths (((search (rem.drop o2)).label : ℤ) - 1)) := by
          intro seg2 lab2 hmem2
          obtain ⟨hK2, hP2⟩ := ih (rem.drop (s.2.offset + s.2.len)) seg2 lab2 hmem2
          refine ⟨hK2, fun h0 => ?_⟩
          obtain ⟨o2, he1, he2, he3⟩ := hP2 h0
          rw [List.drop_drop] at he1 he2 he3
          exact ⟨_, he1, he2, he3⟩
        have hmatched : (seg, lab) = ((rem.drop s.2.offset).take s.2.len, s.2.label) →
            lab ≤ K ∧ (lab ≠ 0 → ∃ o : ℕ,
              seg = (rem.drop o).take ((search (rem.drop o)).len) ∧
              lab = (search (rem.drop o)).label ∧
              (search (rem.drop o)).dist ≤
                pyGetD ths (((search (rem.drop o)).label : ℤ) - 1)) := by
          intro he
          have hseg : seg = (rem.drop s.2.offset).take s.2.len := congrArg Prod.fst he
          have hlabe : lab = s.2.label := congrArg Prod.snd he
          constructor
          · rw [hlabe, hAb]
            exact hlab _
          · intro _
            refine ⟨o, ?_, ?_, hAth⟩
            · rw [hseg, hAo, hAl]
            · rw [hlabe, hAb]
        by_cases hoff : 0 < s.2.offset
        · simp only [hoff, if_pos, List.zip_cons_cons, List.mem_cons] at hmem
          rcases hmem with he | he | he
          · have hlabe : lab = 0 := congrArg Prod.snd he
            exact ⟨hlabe ▸ Nat.zero_le K, fun h0 => absurd hlabe h0⟩
          · exact hmatched he
          · exact hrest seg lab he
        · simp only [hoff, if_neg, if_false, List.zip_cons_cons, List.mem_cons] at hmem
          rcases hmem with he | he
          · exact hmatched he
          · exact hrest seg lab he
      · simp only [Bool.not_eq_true] at hm
        simp only [hm, Bool.false_eq_true, if_false, List.zip_cons_cons, List.zip_nil_right,
          List.mem_cons, List.not_mem_nil, or_false] at hmem
        have hlabe : lab = 0 := congrArg Prod.snd hmem
        exact ⟨hlabe ▸ Nat.zero_le K, fun h0 => absurd hlabe h0⟩

/-- C3 amended: every label emitted by the full pipeline is in 0..K, where K
bounds the number of action groups, and a segment receives a nonzero label k
exactly because the searcher returned, for the suffix at that segment start,
label k with an average distance within the threshold of its best matching
group (not of every group: rejection only compares against the best group
threshold, and unmatched spans including those preceding an accepted match
receive label 0). -/
theorem c3_label_domain {α : Type} (dtwOr : List α → ℕ → List (List Dist))
    (lb1Or lb2Or : List α → ℕ → Dist) (perm : List α → List ℕ) (ths : List Dist)
    (minLen maxLen offsetStep K : ℕ) (approx : Bool) (data : List α)
    (hK : ∀ s m, (dtwOr s m).length ≤ K) (seg : List α) (lab : ℕ)
    (hmem : (seg, lab) ∈
      ((segmentFull dtwOr lb1Or lb2Or perm ths minLen maxLen offsetStep approx data).1).zip
        ((segmentFull dtwOr lb1Or lb2Or perm ths minLen maxLen offsetStep approx data).2)) :
    lab ≤ K ∧ (lab ≠ 0 → ∃ o : ℕ,
      seg = (data.drop o).take
        ((searchOf dtwOr lb1Or lb2Or perm minLen maxLen (data.drop o)).len) ∧
      lab = (searchOf dtwOr lb1Or lb2Or perm minLen maxLen (data.drop o)).label ∧
      (searchOf dtwOr lb1Or lb2Or perm minLen maxLen (data.drop o)).dist ≤
        pyGetD ths
          (((searchOf dtwOr lb1Or lb2Or perm minLen maxLen (data.drop o)).label : ℤ) - 1)) := by
  have hlab : ∀ s, (searchOf dtwOr lb1Or lb2Or perm minLen maxLen s).label ≤ K := fun s =>
    search_subsequence_label (lb1Or s) (lb2Or s) (dtwOr s) minLen maxLen s.length K (perm s) (hK s)
  exact segmentLoop_labels (searchOf dtwOr lb1Or lb2Or perm minLen maxLen) ths minLen
    offsetStep K approx hlab (data.length + 1) data seg lab hmem

/-- A short leftover remainder is emitted as a single label 0 segment, for
any fuel. -/
theorem segmentLoop_short {α : Type} (search : List α → SearchRes) (ths : List Dist)
    (minLen offsetStep : ℕ) (approx : Bool) (rem : List α)
    (h : rem.length ≤ minLen) (hne : rem.length ≠ 0) :
    ∀ fuel, segmentLoop search ths minLen offsetStep approx fuel rem = ([rem], [0]) := by
  intro fuel
  cases fuel with
  | zero => simp [segmentLoop, hne]
  | succ fuel => simp [segmentLoop, h, hne]

/-- Averaging one group holding one distance value gives that value with
label 1. -/
theorem avg_single (q : ℚ) :
    average_distance_to_templates [[(q : ℚ) ]] = (((q : ℚ) : Dist), 1) := by
  simp [average_distance_to_templates, avgLoop, sumDist, divDist]

/-- Averaging two singleton groups where the second value is not smaller
keeps the first group and label 1. -/
theorem avg_pair (a b : ℚ) (hba : ¬ b < a) :
    average_distance_to_templates [[((a : ℚ) : Dist)], [((b : ℚ) : Dist)]] =
      (((a : ℚ) : Dist), 1) := by
  simp [average_distance_to_templates, avgLoop, sumDist, divDist, hba]

/-- With both lower bound oracles at 0 and a constant average distance
oracle, the candidate loop keeps a state already holding that distance. -/
theorem searchLoop_const (d : Dist) (lab : ℕ) (h0 : ¬ d < 0) :
    ∀ (ms : List ℕ) (m0 : ℕ),
      searchLoop true (fun _ => 0) (fun _ => 0) (fun _ => (d, lab)) ms (m0, d, lab) =
        (m0, d, lab) := by
  intro ms
  induction ms with
  | nil => intro m0; simp [searchLoop]
  | cons m rest ih => intro m0; simp [searchLoop, h0, ih]

/-- The first candidate of the loop is never pruned when the running best
is infinity: the loop proceeds directly to its exact average distance. -/
theorem searchLoop_start (lb1 lb2 : ℕ → Dist) (davg : ℕ → Dist × ℕ) (m : ℕ)
    (rest : List ℕ) (m0 lab0 : ℕ) (hd : (davg m).1 < ⊤) :
    searchLoop true lb1 lb2 davg (m :: rest) (m0, ⊤, lab0) =
      searchLoop true lb1 lb2 davg rest (m, (davg m).1, (davg m).2) := by
  simp [searchLoop, not_top_lt, hd]

/-- With both lower bound oracles at 0 and a constant finite average
distance oracle, search_subsequence returns the middle length with that
distance and label. -/
theorem search_subsequence_const (d : Dist) (lab : ℕ) (h0 : ¬ d < 0)
    (hdt : d < ⊤) (minLen maxLen n : ℕ) (perm : List ℕ) :
    search_subsequence true (fun _ => 0) (fun _ => 0) (fun _ => (d, lab))
      minLen maxLen n perm =
      (midLength minLen maxLen n, d, lab) := by
  simp only [search_subsequence]
  rw [searchLoop_start _ _ _ _ _ _ _ hdt]
  exact searchLoop_const d lab h0 _ _

/-- C3 counterexample to the claim as stated: two action groups with
thresholds 1 and 10; for every offset the searcher evaluates a candidate
whose best group is group 1 with average distance 5.  The driver rejects it
because 5 exceeds the best group threshold 1, so the whole series comes back
as one label 0 segment, yet a candidate was evaluated for that span and its
average distance 5 did not exceed the threshold of every group: it is within
the group 2 threshold 10. -/
theorem c3_counterexample :
    segmentFull (fun (_ : List ℕ) (_ : ℕ) => [[((5 : ℚ) : Dist)], [((6 : ℚ) : Dist)]])
      (fun _ _ => 0) (fun _ _ => 0) (fun _ => []) [((1 : ℚ) : Dist), ((10 : ℚ) : Dist)]
      1 2 1 false [1, 2, 3] = ([[1, 2, 3]], [0]) ∧
    (searchOf (fun (_ : List ℕ) (_ : ℕ) => [[((5 : ℚ) : Dist)], [((6 : ℚ) : Dist)]])
      (fun _ _ => 0) (fun _ _ => 0) (fun _ => []) 1 2 ([1, 2, 3] : List ℕ)).dist ≤
      pyGetD [((1 : ℚ) : Dist), ((10 : ℚ) : Dist)] 1 := by
  have havg : average_distance_to_templates [[((5 : ℚ) : Dist)], [((6 : ℚ) : Dist)]] =
      (((5 : ℚ) : Dist), 1) := avg_pair 5 6 (by norm_num)
  have hsearch : ∀ s : List ℕ,
      searchOf (fun (_ : List ℕ) (_ : ℕ) => [[((5 : ℚ) : Dist)], [((6 : ℚ) : Dist)]])
        (fun _ _ => 0) (fun _ _ => 0) (fun _ => []) 1 2 s =
        SearchRes.mk (midLength 1 2 s.length) ((5 : ℚ) : Dist) 1 := by
    intro s
    unfold searchOf
    rw [show (fun m => average_distance_to_templates
        ((fun (_ : List ℕ) (_ : ℕ) => [[((5 : ℚ) : Dist)], [((6 : ℚ) : Dist)]]) s m)) =
        (fun _ => (((5 : ℚ) : Dist), 1)) from funext (fun m => havg)]
    rw [search_subsequence_const ((5 : ℚ) : Dist) 1 (by simp) (WithTop.coe_lt_top 5)]
  constructor
  · apply segment_unmatched_eq _ _ _ _ _ _ (by decide)
    intro o
    rw [hsearch]
    simp [pyGetD]
  · rw [hsearch]
    decide

/-- C3 witness: the amended theorem applied to a concrete run in which one
segment is matched with label 1 and the leftover gets label 0. -/
theorem c3_witness :
    (∀ (s : List ℕ) (m : ℕ),
      ((fun (_ : List ℕ) (_ : ℕ) => [[((1 : ℚ) : Dist)]]) s m).length ≤ 1) ∧
    ((([1, 2] : List ℕ), (1 : ℕ)) ∈
      ((segmentFull (fun (_ : List ℕ) (_ : ℕ) => [[((1 : ℚ) : Dist)]]) (fun _ _ => 0)
        (fun _ _ => 0) (fun _ => []) [((2 : ℚ) : Dist)] 1 2 1 false [1, 2, 3]).1).zip
        ((segmentFull (fun (_ : List ℕ) (_ : ℕ) => [[((1 : ℚ) : Dist)]]) (fun _ _ => 0)
          (fun _ _ => 0) (fun _ => []) [((2 : ℚ) : Dist)] 1 2 1 false [1, 2, 3]).2)) ∧
    ((1 : ℕ) ≤ 1 ∧ ((1 : ℕ) ≠ 0 → ∃ o : ℕ,
      ([1, 2] : List ℕ) = (([1, 2, 3] : List ℕ).drop o).take
        ((searchOf (fun (_ : List ℕ) (_ : ℕ) => [[((1 : ℚ) : Dist)]]) (fun _ _ => 0)
          (fun _ _ => 0) (fun _ => []) 1 2 (([1, 2, 3] : List ℕ).drop o)).len) ∧
      (1 : ℕ) = (searchOf (fun (_ : List ℕ) (_ : ℕ) => [[((1 : ℚ) : Dist)]]) (fun _ _ => 0)
        (fun _ _ => 0) (fun _ => []) 1 2 (([1, 2, 3] : List ℕ).drop o)).label ∧
      (searchOf (fun (_ : List ℕ) (_ : ℕ) => [[((1 : ℚ) : Dist)]]) (fun _ _ => 0)
        (fun _ _ => 0) (fun _ => []) 1 2 (([1, 2, 3] : List ℕ).drop o)).dist ≤
        pyGetD [((2 : ℚ) : Dist)]
          (((searchOf (fun (_ : List ℕ) (_ : ℕ) => [[((1 : ℚ) : Dist)]]) (fun _ _ => 0)
            (fun _ _ => 0) (fun _ => []) 1 2 (([1, 2, 3] : List ℕ).drop o)).label : ℤ) - 1))) := by
  have havg : average_distance_to_templates [[((1 : ℚ) : Dist)]] = (((1 : ℚ) : Dist), 1) := by
    simp [average_distance_to_templates, avgLoop, sumDist, divDist]
  have hsearch : ∀ s : List ℕ,
      searchOf (fun (_ : List ℕ) (_ : ℕ) => [[((1 : ℚ) : Dist)]])
        (fun _ _ => 0) (fun _ _ => 0) (fun _ => []) 1 2 s =
        SearchRes.mk (midLength 1 2 s.length) ((1 : ℚ) : Dist) 1 := by
    intro s
    unfold searchOf
    rw [show (fun m => average_distance_to_templates
        ((fun (_ : List ℕ) (_ : ℕ) => [[((1 : ℚ) : Dist)]]) s m)) =
        (fun _ => (((1 : ℚ) : Dist), 1)) from funext (fun m => havg)]
    rw [search_subsequence_const ((1 : ℚ) : Dist) 1 (by simp) (WithTop.coe_lt_top 1)]
  have hbody : scanBody (searchOf (fun (_ : List ℕ) (_ : ℕ) => [[((1 : ℚ) : Dist)]])
        (fun _ _ => 0) (fun _ _ => 0) (fun _ => []) 1 2) [((2 : ℚ) : Dist)] 1 1 false
        [1, 2, 3] 0 false (BestInfo.mk 0 0 ⊤ 0) =
      Sum.inl (true, BestInfo.mk 0 2 ((1 : ℚ) : Dist) 1) := by
    rw [scanBody, if_neg (by norm_num)]
    rw [List.drop_zero, hsearch [1, 2, 3]]
    decide
  have hscan : scanLoop (searchOf (fun (_ : List ℕ) (_ : ℕ) => [[((1 : ℚ) : Dist)]])
        (fun _ _ => 0) (fun _ _ => 0) (fun _ => []) 1 2) [((2 : ℚ) : Dist)] 1 1 false
        [1, 2, 3] (([1, 2, 3] : List ℕ).length + 1) 0 (false, BestInfo.mk 0 0 ⊤ 0) =
      (true, BestInfo.mk 0 2 ((1 : ℚ) : Dist) 1) := by
    rw [scanLoop]
    rw [show ((false, BestInfo.mk 0 0 (⊤ : Dist) 0).1) = false from rfl,
      show ((false, BestInfo.mk 0 0 (⊤ : Dist) 0).2) = BestInfo.mk 0 0 ⊤ 0 from rfl, hbody]
  have hfull : segmentFull (fun (_ : List ℕ) (_ : ℕ) => [[((1 : ℚ) : Dist)]]) (fun _ _ => 0)
      (fun _ _ => 0) (fun _ => []) [((2 : ℚ) : Dist)] 1 2 1 false [1, 2, 3] =
      ([[1, 2], [3]], [1, 0]) := by
    unfold segmentFull segment_repeat_sequences
    rw [segmentLoop, if_neg (by norm_num), hscan]
    decide
  have hmem : ((([1, 2] : List ℕ), (1 : ℕ)) ∈
      ((segmentFull (fun (_ : List ℕ) (_ : ℕ) => [[((1 : ℚ) : Dist)]]) (fun _ _ => 0)
        (fun _ _ => 0) (fun _ => []) [((2 : ℚ) : Dist)] 1 2 1 false [1, 2, 3]).1).zip
        ((segmentFull (fun (_ : List ℕ) (_ : ℕ) => [[((1 : ℚ) : Dist)]]) (fun _ _ => 0)
          (fun _ _ => 0) (fun _ => []) [((2 : ℚ) : Dist)] 1 2 1 false [1, 2, 3]).2)) := by
    rw [hfull]
    decide
  exact ⟨fun _ _ => Nat.le.refl, hmem,
    c3_label_domain (fun (_ : List ℕ) (_ : ℕ) => [[((1 : ℚ) : Dist)]]) (fun _ _ => 0)
      (fun _ _ => 0) (fun _ => []) [((2 : ℚ) : Dist)] 1 2 1 1 false [1, 2, 3]
      (fun _ _ => Nat.le.refl) [1, 2] 1 hmem⟩

/-- A fold of finite distances stays finite. -/
theorem sumDist_ne_top (g : List Dist) (hfin : ∀ x ∈ g, x ≠ ⊤) : sumDist g ≠ ⊤ := by
  have aux : ∀ (l : List Dist) (a : Dist), a ≠ ⊤ → (∀ x ∈ l, x ≠ ⊤) →
      l.foldl (· + ·) a ≠ ⊤ := by
    intro l
    induction l with
    | nil => intro a ha _; exact ha
    | cons x rest ih =>
      intro a ha hl
      refine ih (a + x) (WithTop.add_ne_top.mpr ⟨ha, hl x (List.mem_cons_self x rest)⟩) ?_
      exact fun y hy => hl y (List.mem_cons_of_mem x hy)
  exact aux g 0 (by simp) hfin

/-- With at least one group of finite kernel distances, the minimum average
distance is finite. -/
theorem avg_lt_top (ds : List (List Dist)) (hds : ds ≠ [])
    (hfin : ∀ g ∈ ds, ∀ x ∈ g, x ≠ ⊤) :
    (average_distance_to_templates ds).1 < ⊤ := by
  obtain ⟨g, rest, rfl⟩ := List.exists_cons_of_ne_nil hds
  have hval : divDist (sumDist g) g.length < ⊤ := by
    have hs := sumDist_ne_top g (hfin g (List.mem_cons_self g rest))
    obtain ⟨q, hq⟩ := WithTop.ne_top_iff_exists.mp hs
    rw [← hq]
    exact WithTop.coe_lt_top _
  have hstep : average_distance_to_templates (g :: rest) =
      avgLoop rest 1 (divDist (sumDist g) g.length, 1) := by
    simp [average_distance_to_templates, avgLoop, hval]
  rw [hstep]
  rcases avgLoop_spec rest 1 (divDist (sumDist g) g.length) 1 with hs | hs
  · rw [hs]; exact hval
  · exact lt_trans hs.2.2 hval

/-- The candidate loop preserves a one-based label bounded by the group
count. -/
theorem searchLoop_label_bounds (useLB : Bool) (lb1 lb2 : ℕ → Dist)
    (dtwOr : ℕ → List (List Dist)) (K : ℕ) (hK : ∀ m, (dtwOr m).length ≤ K) :
    ∀ (ms : List ℕ) (st : ℕ × Dist × ℕ), 1 ≤ st.2.2 → st.2.2 ≤ K →
      1 ≤ (searchLoop useLB lb1 lb2 (fun m => average_distance_to_templates (dtwOr m))
        ms st).2.2 ∧
      (searchLoop useLB lb1 lb2 (fun m => average_distance_to_templates (dtwOr m))
        ms st).2.2 ≤ K := by
  intro ms
  induction ms with
  | nil => intro st h1 h2; simpa [searchLoop] using ⟨h1, h2⟩
  | cons m rest ih =>
    intro st h1 h2
    obtain ⟨lenB, dmin, labB⟩ := st
    simp only [searchLoop]
    split
    · exact ih _ h1 h2
    · split
      · exact ih _ h1 h2
      · split
        · next hlt =>
          refine ih _ ?_ ?_
          · exact (avg_label_of_lt (dtwOr m) dmin hlt).1
          · exact le_trans (avg_label_of_lt (dtwOr m) dmin hlt).2 (hK m)
        · exact ih _ h1 h2

/-- C10: the first candidate length visited by search_subsequence is the
middle of the length range and is never pruned, because the running best
starts at infinity and pruning requires a lower bound strictly above it; so
the search proceeds directly to the exact average distance of the middle
length.  Consequently, when every action group holds at least one template
and the kernel distances are finite, the returned label lies in 1..K, and
the driver lookup distance_thresholds[label - 1] addresses an existing
group. -/
theorem c10_first_candidate_unpruned (lb1 lb2 : ℕ → Dist) (dtwOr : ℕ → List (List Dist))
    (minLen maxLen n K : ℕ) (perm : List ℕ) (ths : List Dist)
    (hths : ths.length = K) (hKlen : ∀ m, (dtwOr m).length = K)
    (_hgne : ∀ m : ℕ, ∀ g ∈ dtwOr m, g ≠ [])
    (hfin : ∀ m : ℕ, ∀ g ∈ dtwOr m, ∀ x ∈ g, x ≠ ⊤) (hK1 : 1 ≤ K) :
    search_subsequence true lb1 lb2 (fun m => average_distance_to_templates (dtwOr m))
        minLen maxLen n perm =
      searchLoop true lb1 lb2 (fun m => average_distance_to_templates (dtwOr m))
        (perm.filter (fun x => x ≠ midLength minLen maxLen n))
        (midLength minLen maxLen n,
          (average_distance_to_templates (dtwOr (midLength minLen maxLen n))).1,
          (average_distance_to_templates (dtwOr (midLength minLen maxLen n))).2) ∧
    1 ≤ (search_subsequence true lb1 lb2
        (fun m => average_distance_to_templates (dtwOr m)) minLen maxLen n perm).2.2 ∧
    (search_subsequence true lb1 lb2
        (fun m => average_distance_to_templates (dtwOr m)) minLen maxLen n perm).2.2 ≤ K ∧
    (search_subsequence true lb1 lb2
        (fun m => average_distance_to_templates (dtwOr m)) minLen maxLen n perm).2.2 - 1 <
      ths.length := by
  have hdsne : dtwOr (midLength minLen maxLen n) ≠ [] := by
    intro hcon
    have := hKlen (midLength minLen maxLen n)
    rw [hcon] at this
    simp at this
    omega
  have hmid : (average_distance_to_templates (dtwOr (midLength minLen maxLen n))).1 < ⊤ :=
    avg_lt_top _ hdsne (hfin _)
  have heq : search_subsequence true lb1 lb2
      (fun m => average_distance_to_templates (dtwOr m)) minLen maxLen n perm =
      searchLoop true lb1 lb2 (fun m => average_distance_to_templates (dtwOr m))
        (perm.filter (fun x => x ≠ midLength minLen maxLen n))
        (midLength minLen maxLen n,
          (average_distance_to_templates (dtwOr (midLength minLen maxLen n))).1,
          (average_distance_to_templates (dtwOr (midLength minLen maxLen n))).2) := by
    simp only [search_subsequence]
    exact searchLoop_start lb1 lb2 _ _ _ _ _ hmid
  have hlabmid := avg_label_of_lt (dtwOr (midLength minLen maxLen n)) ⊤ hmid
  have hbounds := searchLoop_label_bounds true lb1 lb2 dtwOr K
    (fun m => le_of_eq (hKlen m))
    (perm.filter (fun x => x ≠ midLength minLen maxLen n))
    (midLength minLen maxLen n,
      (average_distance_to_templates (dtwOr (midLength minLen maxLen n))).1,
      (average_distance_to_templates (dtwOr (midLength minLen maxLen n))).2)
    hlabmid.1 (le_trans hlabmid.2 (le_of_eq (hKlen _)))
  rw [heq]
  refine ⟨rfl, hbounds.1, hbounds.2, ?_⟩
  omega

/-- C10 witness: the theorem applied to one action group holding one
template with a finite kernel distance. -/
theorem c10_witness :
    (List.length [((2 : ℚ) : Dist)] = 1) ∧
    (∀ m : ℕ, (((fun (_ : ℕ) => [[((1 : ℚ) : Dist)]]) m)).length = 1) ∧
    (∀ m : ℕ, ∀ g ∈ (fun (_ : ℕ) => [[((1 : ℚ) : Dist)]]) m, g ≠ []) ∧
    (∀ m : ℕ, ∀ g ∈ (fun (_ : ℕ) => [[((1 : ℚ) : Dist)]]) m, ∀ x ∈ g, x ≠ ⊤) ∧
    (1 ≤ (search_subsequence true (fun _ => 0) (fun _ => 0)
      (fun m => average_distance_to_templates ((fun (_ : ℕ) => [[((1 : ℚ) : Dist)]]) m))
      1 2 3 []).2.2 ∧
    (search_subsequence true (fun _ => 0) (fun _ => 0)
      (fun m => average_distance_to_templates ((fun (_ : ℕ) => [[((1 : ℚ) : Dist)]]) m))
      1 2 3 []).2.2 ≤ 1 ∧
    (search_subsequence true (fun _ => 0) (fun _ => 0)
      (fun m => average_distance_to_templates ((fun (_ : ℕ) => [[((1 : ℚ) : Dist)]]) m))
      1 2 3 []).2.2 - 1 < List.length [((2 : ℚ) : Dist)]) :=
  ⟨rfl, fun _ => rfl,
    (by intro m g hg; rw [List.mem_singleton] at hg; subst hg; simp),
    (by intro m g hg; rw [List.mem_singleton] at hg; subst hg; intro x hx;
        rw [List.mem_singleton] at hx; subst hx; simp),
    (c10_first_candidate_unpruned (fun _ => 0) (fun _ => 0) (fun (_ : ℕ) => [[((1 : ℚ) : Dist)]])
      1 2 3 1 [] [((2 : ℚ) : Dist)] rfl (fun _ => rfl)
      (by intro m g hg; rw [List.mem_singleton] at hg; subst hg; simp)
      (by intro m g hg; rw [List.mem_singleton] at hg; subst hg; intro x hx;
          rw [List.mem_singleton] at hx; subst hx; simp)
      (le_refl 1)).2⟩

/-- Inside the grid a cell of the mask is zero exactly when it lies within
the band. -/
theorem sakoe_chiba_mask_zero_iff (sz1 sz2 : ℕ) (w : ℚ) (i j : ℕ)
    (hi : i < sz1) (hj : j < sz2) :
    sakoe_chiba_mask sz1 sz2 w i j = 0 ↔
      ((i : ℤ) - (j : ℤ)).natAbs ≤ sakoeChibaWidth sz1 sz2 w := by
  unfold sakoe_chiba_mask
  by_cases h12 : sz1 ≤ sz2
  · simp only [h12, if_pos]
    by_cases hc : i - sakoeChibaWidth sz1 sz2 w ≤ j ∧
        j < min sz2 (i + sakoeChibaWidth sz1 sz2 w) + 1
    · simp only [hc, and_self, ite_true, true_iff]
      have h3 : j ≤ i + sakoeChibaWidth sz1 sz2 w :=
        le_trans (Nat.lt_succ_iff.mp hc.2) (min_le_right _ _)
      have h4 := hc.1
      omega
    · simp only [hc, if_neg, if_false]
      constructor
      · intro hcon
        simp at hcon
      · intro habs
        exfalso
        apply hc
        refine ⟨by omega, ?_⟩
        have : j ≤ min sz2 (i + sakoeChibaWidth sz1 sz2 w) :=
          le_min (by omega) (by omega)
        omega
  · simp only [h12, if_neg, if_false]
    by_cases hc : j - sakoeChibaWidth sz1 sz2 w ≤ i ∧
        i < min sz1 (j + sakoeChibaWidth sz1 sz2 w) + 1
    · simp only [hc, and_self, ite_true, true_iff]
      have h3 : i ≤ j + sakoeChibaWidth sz1 sz2 w :=
        le_trans (Nat.lt_succ_iff.mp hc.2) (min_le_right _ _)
      have h4 := hc.1
      omega
    · simp only [hc, if_neg, if_false]
      constructor
      · intro hcon
        simp at hcon
      · intro habs
        exfalso
        apply hc
        refine ⟨by omega, ?_⟩
        have : i ≤ min sz1 (j + sakoeChibaWidth sz1 sz2 w) :=
          le_min (by omega) (by omega)
        omega

/-- A zero-cost monotone path exists whenever all in-band cells are zero and
the band is wider than the length difference. -/
theorem zeroPath_of_band (sz1 sz2 W : ℕ) (mask : ℕ → ℕ → Dist)
    (h1 : 1 ≤ sz1) (h2 : 1 ≤ sz2)
    (hchar : ∀ i j, i < sz1 → j < sz2 → ((i : ℤ) - (j : ℤ)).natAbs ≤ W → mask i j = 0)
    (hW : ((sz1 : ℤ) - (sz2 : ℤ)).natAbs < W) :
    ZeroPath mask (sz1 - 1) (sz2 - 1) := by
  have hdiag : ∀ k, k < min sz1 sz2 → ZeroPath mask k k := by
    intro k
    induction k with
    | zero =>
      intro hk
      exact ZeroPath.start (hchar 0 0 (by omega) (by omega) (by simp))
    | succ k ih =>
      intro hk
      exact ZeroPath.diag (ih (by omega)) (hchar (k + 1) (k + 1) (by omega) (by omega) (by simp))
  by_cases h12 : sz1 ≤ sz2
  · have hrow : ∀ t, sz1 - 1 + t ≤ sz2 - 1 → ZeroPath mask (sz1 - 1) (sz1 - 1 + t) := by
      intro t
      induction t with
      | zero => intro _; exact hdiag (sz1 - 1) (by omega)
      | succ t ih =>
        intro ht
        have : sz1 - 1 + t + 1 = sz1 - 1 + (t + 1) := by omega
        rw [← this]
        exact ZeroPath.right (ih (by omega))
          (hchar (sz1 - 1) (sz1 - 1 + t + 1) (by omega) (by omega) (by omega))
    have := hrow (sz2 - 1 - (sz1 - 1)) (by omega)
    rwa [show sz1 - 1 + (sz2 - 1 - (sz1 - 1)) = sz2 - 1 from by omega] at this
  · have hcol : ∀ t, sz2 - 1 + t ≤ sz1 - 1 → ZeroPath mask (sz2 - 1 + t) (sz2 - 1) := by
      intro t
      induction t with
      | zero => intro _; exact hdiag (sz2 - 1) (by omega)
      | succ t ih =>
        intro ht
        have : sz2 - 1 + t + 1 = sz2 - 1 + (t + 1) := by omega
        rw [← this]
        exact ZeroPath.down (ih (by omega))
          (hchar (sz2 - 1 + t + 1) (sz2 - 1) (by omega) (by omega) (by omega))
    have := hcol (sz1 - 1 - (sz2 - 1)) (by omega)
    rwa [show sz2 - 1 + (sz1 - 1 - (sz2 - 1)) = sz1 - 1 from by omega] at this

/-- C5: for sequence lengths at least 1 and any warping fraction in (0, 1],
every cell of sakoe_chiba_mask is 0 or infinity, the half-width is at least
the length difference, an in-grid cell is 0 exactly when it lies within the
band, and a monotone path of zero-cost cells from (0, 0) to
(sz1 - 1, sz2 - 1) exists. -/
theorem c5_sakoe_chiba_mask (sz1 sz2 : ℕ) (w : ℚ) (h1 : 1 ≤ sz1) (h2 : 1 ≤ sz2)
    (_hw0 : 0 < w) (_hw1 : w ≤ 1) :
    (∀ i j : ℕ, sakoe_chiba_mask sz1 sz2 w i j = 0 ∨ sakoe_chiba_mask sz1 sz2 w i j = ⊤) ∧
    (((sz1 : ℤ) - (sz2 : ℤ)).natAbs ≤ sakoeChibaWidth sz1 sz2 w) ∧
    (∀ i j : ℕ, i < sz1 → j < sz2 →
      (sakoe_chiba_mask sz1 sz2 w i j = 0 ↔
        ((i : ℤ) - (j : ℤ)).natAbs ≤ sakoeChibaWidth sz1 sz2 w)) ∧
    ZeroPath (sakoe_chiba_mask sz1 sz2 w) (sz1 - 1) (sz2 - 1) := by
  refine ⟨?_, ?_, fun i j hi hj => sakoe_chiba_mask_zero_iff sz1 sz2 w i j hi hj, ?_⟩
  · intro i j
    unfold sakoe_chiba_mask
    split
    · dsimp only
      split
      · left; rfl
      · right; rfl
    · dsimp only
      split
      · left; rfl
      · right; rfl
  · unfold sakoeChibaWidth
    omega
  · refine zeroPath_of_band sz1 sz2 (sakoeChibaWidth sz1 sz2 w) _ h1 h2
      (fun i j hi hj hb => (sakoe_chiba_mask_zero_iff sz1 sz2 w i j hi hj).mpr hb) ?_
    unfold sakoeChibaWidth
    omega

/-- C5 witness: the theorem applied at concrete sizes and warping
fraction. -/
theorem c5_witness :
    (1 ≤ 3 ∧ 1 ≤ 5 ∧ (0 : ℚ) < 1 / 2 ∧ (1 : ℚ) / 2 ≤ 1) ∧
    ZeroPath (sakoe_chiba_mask 3 5 (1 / 2)) (3 - 1) (5 - 1) :=
  ⟨⟨by norm_num, by norm_num, by norm_num, by norm_num⟩,
    (c5_sakoe_chiba_mask 3 5 (1 / 2) (by norm_num) (by norm_num) (by norm_num)
      (by norm_num)).2.2.2⟩

/-- An in-range getD value is an element of the list. -/
theorem getD_mem_of_lt (l : List ℚ) (n : ℕ) (h : n < l.length) : l.getD n 0 ∈ l := by
  rw [List.getD_eq_getElem _ _ h]
  exact List.getElem_mem h

/-- In a sorted list every element is at most the last element. -/
theorem sorted_le_getD_last (s : List ℚ) (hs : s.Sorted (· ≤ ·)) :
    ∀ x ∈ s, x ≤ s.getD (s.length - 1) 0 := by
  induction s with
  | nil => intro x hx; cases hx
  | cons a t ih =>
    intro x hx
    cases t with
    | nil =>
      rw [List.mem_singleton] at hx
      subst hx
      rfl
    | cons b u =>
      have hst : (b :: u).Sorted (· ≤ ·) := (List.sorted_cons.mp hs).2
      have hab : ∀ y ∈ b :: u, a ≤ y := (List.sorted_cons.mp hs).1
      have hlen : (a :: b :: u).length - 1 = ((b :: u).length - 1) + 1 := by
        simp
      rw [hlen, List.getD_cons_succ]
      rcases List.mem_cons.mp hx with hx | hx
      · subst hx
        exact hab _ (getD_mem_of_lt _ _ (by simp))
      · exact ih hst x hx

/-- The 100th percentile is the last element of the sorted samples. -/
theorem np_percentile_100 (ds : List ℚ) (hne : ds ≠ []) :
    np_percentile ds 100 =
      (ds.insertionSort (· ≤ ·)).getD ((ds.insertionSort (· ≤ ·)).length - 1) 0 := by
  have hn : 1 ≤ (ds.insertionSort (· ≤ ·)).length := by
    rw [(List.perm_insertionSort (· ≤ ·) ds).length_eq]
    exact List.length_pos.mpr hne
  have hpos : (100 : ℚ) / 100 * (((ds.insertionSort (· ≤ ·)).length : ℚ) - 1) =
      (((ds.insertionSort (· ≤ ·)).length - 1 : ℕ) : ℚ) := by
    rw [Nat.cast_sub hn]
    push_cast
    ring
  simp only [np_percentile]
  rw [hpos, Int.floor_natCast]
  simp

/-- C6: for a group with at least one distance sample, the calibrated
threshold is the maximum of the 100th percentile and the upper Tukey fence
p75 + 1.5 * (p75 - p25); the 100th percentile is the observed maximum of
the samples, so the threshold is never below any observed distance. -/
theorem c6_distance_threshold (ds : List ℚ) (hne : ds ≠ []) :
    distance_threshold ds =
      max (np_percentile ds 100)
        (np_percentile ds 75 + 3 / 2 * (np_percentile ds 75 - np_percentile ds 25)) ∧
    np_percentile ds 100 ∈ ds ∧
    (∀ x ∈ ds, x ≤ np_percentile ds 100) ∧
    (∀ x ∈ ds, x ≤ distance_threshold ds) := by
  have hn : 1 ≤ (ds.insertionSort (· ≤ ·)).length := by
    rw [(List.perm_insertionSort (· ≤ ·) ds).length_eq]
    exact List.length_pos.mpr hne
  have hmax : ∀ x ∈ ds, x ≤ np_percentile ds 100 := by
    intro x hx
    rw [np_percentile_100 ds hne]
    exact sorted_le_getD_last _ (List.sorted_insertionSort (· ≤ ·) ds) x
      ((List.perm_insertionSort (· ≤ ·) ds).mem_iff.mpr hx)
  refine ⟨rfl, ?_, hmax, ?_⟩
  · rw [np_percentile_100 ds hne]
    exact (List.perm_insertionSort (· ≤ ·) ds).mem_iff.mp (getD_mem_of_lt _ _ (by omega))
  · intro x hx
    exact le_trans (hmax x hx) (le_max_left _ _)

/-- C6 witness: the theorem applied to a concrete sample list. -/
theorem c6_witness :
    (([1, 3, 2] : List ℚ) ≠ []) ∧
    (distance_threshold [1, 3, 2] =
      max (np_percentile [1, 3, 2] 100)
        (np_percentile [1, 3, 2] 75 +
          3 / 2 * (np_percentile [1, 3, 2] 75 - np_percentile [1, 3, 2] 25)) ∧
    np_percentile [1, 3, 2] 100 ∈ ([1, 3, 2] : List ℚ) ∧
    (∀ x ∈ ([1, 3, 2] : List ℚ), x ≤ np_percentile [1, 3, 2] 100) ∧
    (∀ x ∈ ([1, 3, 2] : List ℚ), x ≤ distance_threshold [1, 3, 2])) :=
  ⟨by simp, c6_distance_threshold [1, 3, 2] (by simp)⟩

/-- Every accumulated cost dominates the corner cost. -/
theorem dtwAcc_ge_corner (c : ℕ → ℕ → ℝ) (hc : ∀ i j, 0 ≤ c i j) :
    ∀ i j, c 0 0 ≤ dtwAcc c i j := by
  intro i j
  induction i, j using dtwAcc.induct c with
  | case1 => simp [dtwAcc]
  | case2 i ih => rw [dtwAcc]; nlinarith [hc (i + 1) 0]
  | case3 j ih => rw [dtwAcc]; nlinarith [hc 0 (j + 1)]
  | case4 i j ih1 ih2 ih3 =>
    rw [dtwAcc]
    have h0 := hc (i + 1) (j + 1)
    have h4 := le_min (le_min ih1 ih2) ih3
    nlinarith

/-- The accumulated cost is monotone in the cost function; in particular a
nonnegative mask added to the local cost can only increase it. -/
theorem dtwAcc_mono (c1 c2 : ℕ → ℕ → ℝ) (h : ∀ i j, c1 i j ≤ c2 i j) :
    ∀ i j, dtwAcc c1 i j ≤ dtwAcc c2 i j := by
  intro i j
  induction i, j using dtwAcc.induct c1 with
  | case1 => simpa [dtwAcc] using h 0 0
  | case2 i ih => rw [dtwAcc, dtwAcc]; exact add_le_add (h (i + 1) 0) ih
  | case3 j ih => rw [dtwAcc, dtwAcc]; exact add_le_add (h 0 (j + 1)) ih
  | case4 i j ih1 ih2 ih3 =>
    rw [dtwAcc, dtwAcc]
    exact add_le_add (h (i + 1) (j + 1)) (min_le_min (min_le_min ih1 ih2) ih3)

/-- The accumulated cost of the transposed cost matrix is the transpose of
the accumulated cost. -/
theorem dtwAcc_flip (c : ℕ → ℕ → ℝ) :
    ∀ i j, dtwAcc (fun a b => c b a) i j = dtwAcc c j i := by
  intro i j
  induction i, j using dtwAcc.induct (fun a b => c b a) with
  | case1 => rw [dtwAcc, dtwAcc]
  | case2 i ih => rw [dtwAcc, dtwAcc, ih]
  | case3 j ih => rw [dtwAcc, dtwAcc, ih]
  | case4 i j ih1 ih2 ih3 =>
    rw [dtwAcc, dtwAcc, ih1, ih2, ih3, min_comm (dtwAcc c (j + 1) i) (dtwAcc c j (i + 1))]

/-- The key lower bound on the accumulated cost: any warping path contains
the corner (0, 0), the final cell (i, j), and at least one cell in every
intermediate row, so any per-row lower bound e on the costs of rows 1..i-1
can be summed. -/
theorem dtwAcc_row_lb (c : ℕ → ℕ → ℝ) (e : ℕ → ℝ) (J : ℕ)
    (hc : ∀ i j, 0 ≤ c i j)
    (he : ∀ r j, 1 ≤ r → j ≤ J → e r ≤ c r j) :
    ∀ i j, j ≤ J → ¬(i = 0 ∧ j = 0) →
      c 0 0 + (Finset.Ico 1 i).sum e + c i j ≤ dtwAcc c i j := by
  intro i j
  induction i, j using dtwAcc.induct c with
  | case1 => intro _ hij; exact absurd ⟨rfl, rfl⟩ hij
  | case2 i ih =>
    intro hJ _
    rw [dtwAcc]
    rcases Nat.eq_zero_or_pos i with hi0 | hip
    · subst hi0
      simp [dtwAcc]
      linarith
    · have hih := ih (Nat.zero_le J) (by omega)
      have hsum : (Finset.Ico 1 (i + 1)).sum e = (Finset.Ico 1 i).sum e + e i :=
        Finset.sum_Ico_succ_top hip e
      have hei : e i ≤ c i 0 := he i 0 hip (Nat.zero_le J)
      linarith
  | case3 j ih =>
    intro hJ _
    rw [dtwAcc]
    have hge := dtwAcc_ge_corner c hc 0 j
    rw [Finset.Ico_eq_empty (by omega), Finset.sum_empty]
    linarith
  | case4 i j ih1 ih2 ih3 =>
    intro hJ _
    rw [dtwAcc]
    have hstep : c 0 0 + (Finset.Ico 1 (i + 1)).sum e ≤
        min (min (dtwAcc c i (j + 1)) (dtwAcc c (i + 1) j)) (dtwAcc c i j) := by
      refine le_min (le_min ?_ ?_) ?_
      · rcases Nat.eq_zero_or_pos i with hi0 | hip
        · subst hi0
          have hge := dtwAcc_ge_corner c hc 0 (j + 1)
          simpa using hge
        · have hih := ih1 (by omega) (by omega)
          have hsum : (Finset.Ico 1 (i + 1)).sum e = (Finset.Ico 1 i).sum e + e i :=
            Finset.sum_Ico_succ_top hip e
          have hei : e i ≤ c i (j + 1) := he i (j + 1) hip (by omega)
          linarith
      · have hih := ih2 (by omega) (by omega)
        have hci := hc (i + 1) j
        linarith
      · rcases Nat.eq_zero_or_pos i with hi0 | hip
        · subst hi0
          have hge := dtwAcc_ge_corner c hc 0 j
          simpa using hge
        · have hih := ih3 (by omega) (by omega)
          have hsum : (Finset.Ico 1 (i + 1)).sum e = (Finset.Ico 1 i).sum e + e i :=
            Finset.sum_Ico_succ_top hip e
          have hei : e i ≤ c i j := he i j hip (by omega)
          linarith
    have h0 := hc (i + 1) (j + 1)
    linarith

theorem foldl_min_le_init (l : List ℝ) : ∀ a, l.foldl min a ≤ a := by
  induction l with
  | nil => intro a; exact le_refl a
  | cons b t ih => intro a; exact le_trans (ih (min a b)) (min_le_left a b)

theorem foldl_min_le_mem (l : List ℝ) (x : ℝ) (hx : x ∈ l) : ∀ a, l.foldl min a ≤ x := by
  induction l with
  | nil => cases hx
  | cons b t ih =>
    intro a
    rcases List.mem_cons.mp hx with h | h
    · subst h
      exact le_trans (foldl_min_le_init t (min a x)) (min_le_right a x)
    · exact ih h (min a b)

theorem init_le_foldl_max (l : List ℝ) : ∀ a, a ≤ l.foldl max a := by
  induction l with
  | nil => intro a; exact le_refl a
  | cons b t ih => intro a; exact le_trans (le_max_left a b) (ih (max a b))

theorem mem_le_foldl_max (l : List ℝ) (x : ℝ) (hx : x ∈ l) : ∀ a, x ≤ l.foldl max a := by
  induction l with
  | nil => cases hx
  | cons b t ih =>
    intro a
    rcases List.mem_cons.mp hx with h | h
    · subst h
      exact le_trans (le_max_right a x) (init_le_foldl_max t (max a x))
    · exact ih h (max a b)

theorem infoMin_le (t : RSeq) (k j : ℕ) (hj : j < t.len) : infoMin t k ≤ t.val j k :=
  foldl_min_le_mem _ _ (List.mem_map_of_mem _ (List.mem_range.mpr hj)) _

theorem le_infoMax (t : RSeq) (k j : ℕ) (hj : j < t.len) : t.val j k ≤ infoMax t k :=
  mem_le_foldl_max _ _ (List.mem_map_of_mem (fun i => t.val i k) (List.mem_range.mpr hj)) _

theorem sqCost_nonneg (dm : ℕ) (s t : RSeq) (i j : ℕ) : 0 ≤ sqCost dm s t i j :=
  Finset.sum_nonneg fun _ _ => sq_nonneg _

theorem sqCost_comm (dm : ℕ) (s t : RSeq) (i j : ℕ) :
    sqCost dm t s j i = sqCost dm s t i j :=
  Finset.sum_congr rfl fun k _ => by ring

theorem rowDev_nonneg (dm : ℕ) (s t : RSeq) (i : ℕ) : 0 ≤ rowDev dm s t i :=
  Finset.sum_nonneg fun _ _ => add_nonneg (sq_nonneg _) (sq_nonneg _)

/-- Clamped deviation from an envelope is below the squared deviation from
any value inside the envelope. -/
theorem env_sq_le (a lo hi b : ℝ) (h1 : lo ≤ b) (h2 : b ≤ hi) :
    (max (a - hi) 0) ^ 2 + (max (lo - a) 0) ^ 2 ≤ (a - b) ^ 2 := by
  rcases le_total a hi with hahi | hahi
  · rcases le_total lo a with hloa | hloa
    · rw [max_eq_right (by linarith), max_eq_right (by linarith)]
      simpa using sq_nonneg (a - b)
    · rw [max_eq_right (by linarith), max_eq_left (by linarith)]
      nlinarith
  · rw [max_eq_left (by linarith), max_eq_right (by linarith)]
    nlinarith

theorem rowDev_le_sqCost (dm : ℕ) (s t : RSeq) (i j : ℕ) (hj : j < t.len) :
    rowDev dm s t i ≤ sqCost dm s t i j :=
  Finset.sum_le_sum fun k _ =>
    env_sq_le (s.val i k) (infoMin t k) (infoMax t k) (t.val j k)
      (infoMin_le t k j hj) (le_infoMax t k j hj)

theorem filter_middle_eq_Ico (n : ℕ) :
    (Finset.range n).filter (fun i => i ≠ 0 ∧ i ≠ n - 1) = Finset.Ico 1 (n - 1) := by
  ext i
  simp only [Finset.mem_filter, Finset.mem_range, Finset.mem_Ico, ne_eq]
  omega

theorem sqrt_div_le_sqrt_div (a b D : ℝ) (hD : 0 < D) (h : a ≤ b) :
    Real.sqrt a / D ≤ Real.sqrt b / D := by
  rw [div_eq_mul_inv, div_eq_mul_inv]
  exact mul_le_mul_of_nonneg_right (Real.sqrt_le_sqrt h) (inv_nonneg.mpr hD.le)

theorem len_sum_pos (s t : RSeq) (hs : 1 ≤ s.len) :
    (0 : ℝ) < (s.len : ℝ) + (t.len : ℝ) := by
  have h1 : (1 : ℝ) ≤ (s.len : ℝ) := by exact_mod_cast hs
  have h2 : (0 : ℝ) ≤ (t.len : ℝ) := Nat.cast_nonneg _
  linarith

/-- Per template, the endpoint bound is below the normalized DTW distance,
provided the two sequences are not both of length one. -/
theorem lb_endpoint_le (dm : ℕ) (s t : RSeq) (mask : ℕ → ℕ → ℝ)
    (hs : 1 ≤ s.len) (ht : 1 ≤ t.len) (h3 : 3 ≤ s.len + t.len)
    (hm : ∀ i j, 0 ≤ mask i j) :
    lb_endpoint dm s t ≤ njit_dtw dm mask s t / ((s.len : ℝ) + (t.len : ℝ)) := by
  have hc : ∀ i j, 0 ≤ sqCost dm s t i j + mask i j :=
    fun i j => add_nonneg (sqCost_nonneg dm s t i j) (hm i j)
  have hrow := dtwAcc_row_lb (fun i j => sqCost dm s t i j + mask i j)
    (fun _ => 0) (t.len - 1) hc (fun r j _ _ => hc r j)
    (s.len - 1) (t.len - 1) (le_refl _) (by omega)
  simp only [] at hrow
  rw [Finset.sum_const_zero] at hrow
  unfold lb_endpoint njit_dtw
  apply sqrt_div_le_sqrt_div _ _ _ (len_sum_pos s t hs)
  have hm1 := hm 0 0
  have hm2 := hm (s.len - 1) (t.len - 1)
  unfold devFirstLast
  linarith

/-- Per template, the envelope bound is below the normalized DTW distance,
provided the two sequences are not both of length one. -/
theorem lb_envelope_le (dm : ℕ) (s t : RSeq) (mask : ℕ → ℕ → ℝ)
    (hs : 1 ≤ s.len) (ht : 1 ≤ t.len) (h3 : 3 ≤ s.len + t.len)
    (hm : ∀ i j, 0 ≤ mask i j) :
    lb_envelope dm s t ≤ njit_dtw dm mask s t / ((s.len : ℝ) + (t.len : ℝ)) := by
  have hc : ∀ i j, 0 ≤ sqCost dm s t i j + mask i j :=
    fun i j => add_nonneg (sqCost_nonneg dm s t i j) (hm i j)
  have hm1 := hm 0 0
  have hm2 := hm (s.len - 1) (t.len - 1)
  unfold lb_envelope njit_dtw
  apply max_le
  · have hrow := dtwAcc_row_lb (fun i j => sqCost dm s t i j + mask i j)
      (rowDev dm s t) (t.len - 1) hc
      (fun r j _ hj =>
        le_trans (rowDev_le_sqCost dm s t r j (by omega))
          (le_add_of_nonneg_right (hm r j)))
      (s.len - 1) (t.len - 1) (le_refl _) (by omega)
    simp only [] at hrow
    rw [filter_middle_eq_Ico]
    apply sqrt_div_le_sqrt_div _ _ _ (len_sum_pos s t hs)
    unfold devFirstLast
    linarith
  · have hrow := dtwAcc_row_lb (fun a b => sqCost dm s t b a + mask b a)
      (rowDev dm t s) (s.len - 1) (fun i j => hc j i)
      (fun r j _ hj =>
        le_trans (rowDev_le_sqCost dm t s r j (by omega))
          (le_trans (le_of_eq (sqCost_comm dm s t j r))
            (le_add_of_nonneg_right (hm j r))))
      (t.len - 1) (s.len - 1) (le_refl _) (by omega)
    simp only [] at hrow
    have hflip := dtwAcc_flip (fun i j => sqCost dm s t i j + mask i j)
      (t.len - 1) (s.len - 1)
    rw [filter_middle_eq_Ico]
    apply sqrt_div_le_sqrt_div _ _ _ (len_sum_pos s t hs)
    rw [← hflip]
    unfold devFirstLast
    linarith

theorem map_sum_le (g : List RSeq) (f h : RSeq → ℝ) (hfh : ∀ x ∈ g, f x ≤ h x) :
    (g.map f).sum ≤ (g.map h).sum := by
  induction g with
  | nil => simp
  | cons a tl ih =>
    simp only [List.map_cons, List.sum_cons]
    exact add_le_add (hfh a (List.mem_cons_self a tl))
      (ih fun x hx => hfh x (List.mem_cons_of_mem a hx))

theorem avg_map_le (g : List RSeq) (f h : RSeq → ℝ) (hfh : ∀ x ∈ g, f x ≤ h x) :
    (g.map f).sum / (g.length : ℝ) ≤ (g.map h).sum / (g.length : ℝ) := by
  rw [div_eq_mul_inv, div_eq_mul_inv]
  exact mul_le_mul_of_nonneg_right (map_sum_le g f h hfh) (inv_nonneg.mpr (Nat.cast_nonneg _))

theorem foldl_min_acc_mono : ∀ (l : List (List RSeq)) (F H : List RSeq → WithTop ℝ),
    (∀ g ∈ l, F g ≤ H g) → ∀ a b : WithTop ℝ, a ≤ b →
      (l.map F).foldl min a ≤ (l.map H).foldl min b := by
  intro l F H
  induction l with
  | nil => intro _ a b hab; simpa using hab
  | cons x tl ih =>
    intro hFH a b hab
    simp only [List.map_cons, List.foldl_cons]
    exact ih (fun g hg => hFH g (List.mem_cons_of_mem x hg)) _ _
      (min_le_min hab (hFH x (List.mem_cons_self x tl)))

/-- C2 (amended): for every candidate sequence of length at least one and
every set of template groups, provided no template forms a pair of
one-point sequences with the candidate (combined length at least three,
which the counterexample shows is necessary), the group-minimum of Bound 1
and the group-minimum of Bound 2 are each below the minimum average warped
distance computed by average_distance_to_templates, for every nonnegative
mask; hence pruning on either bound never discards a candidate that would
have improved the search result. -/
theorem c2_lower_bounds_amended (dm : ℕ) (s : RSeq) (gs : List (List RSeq))
    (mf : ℕ → ℕ → ℕ → ℕ → ℝ)
    (hs : 1 ≤ s.len)
    (ht : ∀ g ∈ gs, ∀ t ∈ g, 1 ≤ t.len)
    (h3 : ∀ g ∈ gs, ∀ t ∈ g, 3 ≤ s.len + t.len)
    (hmf : ∀ a b i j, 0 ≤ mf a b i j) :
    average_lb_distance_to_templates1 dm s gs ≤
        average_distance_to_templates_real dm mf s gs ∧
      average_lb_distance_to_templates2 dm s gs ≤
        average_distance_to_templates_real dm mf s gs := by
  constructor
  · apply foldl_min_acc_mono gs _ _ _ ⊤ ⊤ (le_refl _)
    intro g hg
    apply WithTop.coe_le_coe.mpr
    apply avg_map_le
    intro t htm
    exact lb_endpoint_le dm s t (mf s.len t.len) hs (ht g hg t htm) (h3 g hg t htm)
      (fun i j => hmf s.len t.len i j)
  · apply foldl_min_acc_mono gs _ _ _ ⊤ ⊤ (le_refl _)
    intro g hg
    apply WithTop.coe_le_coe.mpr
    apply avg_map_le
    intro t htm
    exact lb_envelope_le dm s t (mf s.len t.len) hs (ht g hg t htm) (h3 g hg t htm)
      (fun i j => hmf s.len t.len i j)

/-- C2 counterexample: with a one-point candidate of value 0 and a single
one-point template of value 1, Bound 1 evaluates to the square root of two
halves while the true average warped distance is one half, so the claimed
inequality fails without the combined-length restriction. -/
theorem c2_counterexample :
    ¬ average_lb_distance_to_templates1 1 cxS [[cxT]] ≤
        average_distance_to_templates_real 1 (fun _ _ _ _ => 0) cxS [[cxT]] := by
  have hsq : sqCost 1 cxS cxT 0 0 = 1 := by
    simp [sqCost, cxS, cxT, Finset.sum_range_one]
  have hdev : devFirstLast 1 cxS cxT = 2 := by
    simp only [devFirstLast, cxS, cxT]
    rw [show sqCost 1 ⟨1, fun _ _ => 0⟩ ⟨1, fun _ _ => 1⟩ 0 0 = 1 from hsq]
    norm_num
  have hlb : lb_endpoint 1 cxS cxT = Real.sqrt 2 / 2 := by
    rw [lb_endpoint, hdev]
    norm_num [cxS, cxT]
  have hdtw : njit_dtw 1 (fun _ _ => (0 : ℝ)) cxS cxT = 1 := by
    rw [njit_dtw]
    have hacc : dtwAcc (fun i j => sqCost 1 cxS cxT i j + (fun _ _ => (0 : ℝ)) i j)
        (cxS.len - 1) (cxT.len - 1) = 1 := by
      show dtwAcc _ 0 0 = 1
      rw [dtwAcc]
      simpa using hsq
    rw [hacc, Real.sqrt_one]
  simp only [average_lb_distance_to_templates1, average_distance_to_templates_real,
    List.map_cons, List.map_nil, List.foldl_cons, List.foldl_nil, List.sum_cons,
    List.sum_nil, List.length_cons, List.length_nil, hlb, hdtw]
  rw [min_eq_right le_top, min_eq_right le_top, WithTop.coe_le_coe]
  intro h
  have h2 : Real.sqrt 2 ^ 2 = 2 := Real.sq_sqrt (by norm_num)
  have h0 : (0 : ℝ) ≤ Real.sqrt 2 := Real.sqrt_nonneg 2
  have hcs : (cxS.len : ℝ) = 1 := by norm_num [cxS]
  have hct : (cxT.len : ℝ) = 1 := by norm_num [cxT]
  rw [hcs, hct] at h
  norm_num at h
  nlinarith

/-- C2 witness: the amended theorem instantiated at a two-point candidate
and a singleton group holding one one-point template under a zero mask. -/
theorem c2_lower_bounds_amended_witness :
    average_lb_distance_to_templates1 1 cxW [[cxT]] ≤
        average_distance_to_templates_real 1 (fun _ _ _ _ => 0) cxW [[cxT]] ∧
      average_lb_distance_to_templates2 1 cxW [[cxT]] ≤
        average_distance_to_templates_real 1 (fun _ _ _ _ => 0) cxW [[cxT]] :=
  c2_lower_bounds_amended 1 cxW [[cxT]] (fun _ _ _ _ => 0)
    (by norm_num [cxW])
    (by
      intro g hg t htm
      rw [List.mem_singleton] at hg
      subst hg
      rw [List.mem_singleton] at htm
      subst htm
      norm_num [cxT])
    (by
      intro g hg t htm
      rw [List.mem_singleton] at hg
      subst hg
      rw [List.mem_singleton] at htm
      subst htm
      norm_num [cxW, cxT])
    (fun _ _ _ _ => le_refl 0)

end RepeatMotion
